import Mathlib

/-!
Verification of the MiniShell in-memory virtual file system.

This file is a shallow embedding, in Lean 4, of the C++ sources:
  Utility/Utils.hpp            (validatePath, split, KMPSolver)
  include/FileSystemException.hpp
  src/Directory.cpp, include/Directory.hpp
  src/File.cpp, include/File.hpp
  src/FileSystemManager.cpp, include/FileSystemManager.hpp

Modelling conventions, fixed once and used throughout:
* C++ exceptions become `Except Err` results.  Every engine operation in the
  source either throws before mutating anything or completes all of its
  mutations (see the individual definitions), so an `Except`-style embedding
  in which an error leaves the state unchanged is faithful.
* `std::string` becomes `String` (all characters of interest are ASCII, so
  byte positions and character positions coincide).
* `std::unordered_map<std::string, shared_ptr<Node>> children` becomes the
  association list `Entries` with unique keys.  `find` is keyed lookup,
  `operator[] =` is `Entries.set` (replace in place if the key is present,
  append otherwise), `erase` removes the keyed entry.  Iteration order of an
  `unordered_map` is unspecified in C++; the embedding fixes it to insertion
  order, and claims whose spec leaves sibling order unconstrained are stated
  up to permutation.
* The `shared_ptr` tree with weak parent pointers becomes a value tree plus
  paths (lists of child keys from the root).  A node's identity is its path:
  `[]` is the root, ascending a parent pointer is `List.dropLast`.
-/

namespace MiniShell

/-! ## Errors (include/FileSystemException.hpp)

One constructor per exception class; the payload is the string passed to the
constructor of the exception. -/

inductive Err where
  | invalidPath (msg : String)
  | invalidName (name : String)
  | invalidOption (opt : String)
  | invalidOperation (msg : String)
  | dirAlreadyExists (name : String)
  | dirDoesNotExist (name : String)
  | fileDoesNotExist (name : String)
  | fileAlreadyExists (name : String)
  | dirNotEmpty (name : String)
  | runtimeCastError (msg : String)
  deriving DecidableEq, Repr

/-! ## Path resolver (Utility/Utils.hpp) -/

/-- Mirror of `utility::PathPrefix::StartType`.  `INVALID` is the
default-constructed value; `validatePath` always overwrites it, so the
`INVALID`-throw at the end of the C++ function is dead code. -/
inductive StartType where
  | INVALID
  | CURRENT
  | ROOT
  deriving DecidableEq, Repr

/-- Mirror of `utility::PathPrefix`: anchor, number of consumed `..` hops,
and the remaining path text. -/
structure PathPrefix where
  type : StartType
  ups : Nat
  rest : String
  deriving DecidableEq, Repr

/-- The scanning loop of `utility::validatePath` (Utils.hpp lines 35-55).
Branches in source order: `"./"`, `"../"`, `".."` at end of string (the
`".."`-before-`'/'` subcase is taken by the `"../"` branch first), `"."` at
end of string (the `"."`-before-`'/'` subcase is taken by the `"./"` branch
first), otherwise stop. -/
def consumeDots : List Char → Nat → Nat × List Char
  | '.' :: '/' :: rest, ups => consumeDots rest ups
  | '.' :: '.' :: '/' :: rest, ups => consumeDots rest (ups + 1)
  | ['.', '.'], ups => (ups + 1, [])
  | ['.'], ups => (ups, [])
  | cs, ups => (ups, cs)

/-- Mirror of `utility::validatePath` (Utils.hpp lines 16-66).  An empty path
throws `InvalidPathException("Path cannot be empty")`; a leading `'/'` makes
the path ROOT-anchored and scanning starts after it; every other non-empty
path is CURRENT-anchored. -/
def validatePath (path : String) : Except Err PathPrefix :=
  match path.data with
  | [] => .error (.invalidPath "Path cannot be empty")
  | '/' :: cs =>
      let r := consumeDots cs 0
      .ok ⟨.ROOT, r.1, String.mk r.2⟩
  | cs =>
      let r := consumeDots cs 0
      .ok ⟨.CURRENT, r.1, String.mk r.2⟩

/-- The `std::getline(ss, s, '/')` loop of `utility::split`, on the
character list: cut at every `'/'`. -/
def splitRaw : List Char → List Char → List String
  | [], acc => [String.mk acc.reverse]
  | '/' :: rest, acc => String.mk acc.reverse :: splitRaw rest []
  | c :: rest, acc => splitRaw rest (c :: acc)

/-- Mirror of `utility::split` (Utils.hpp lines 68-79): tokenize on `'/'`,
discarding empty segments (`std::getline` with delimiter `'/'` plus the
`!s.empty()` filter; `getline`'s missing final empty token is removed by the
same filter). -/
def splitSegs (s : String) : List String :=
  (splitRaw s.data []).filter (fun t => ¬ t.data.isEmpty)

/-! ## Node model (FileSystemNode.hpp, Directory.hpp, File.hpp)

`Node.dir name children` is a `Directory` (field `dirName`, field
`children`); `Node.file name content` is a `File` (fields `fileName`,
`fileContent`).  `Entries` is the `children` map, with keys in iteration
order. -/

mutual

inductive Node where
  | dir (name : String) (children : Entries)
  | file (name : String) (content : String)
  deriving DecidableEq, Repr

inductive Entries where
  | nil
  | cons (key : String) (val : Node) (rest : Entries)
  deriving DecidableEq, Repr

end

/-- Lookup `children.find(k)` on the map. -/
def Entries.find : Entries → String → Option Node
  | .nil, _ => none
  | .cons k v rest, k' => if k = k' then some v else rest.find k'

/-- Test `children.contains(k)`. -/
def Entries.hasKey (cs : Entries) (k : String) : Bool :=
  (cs.find k).isSome

/-- Assignment `children[k] = v`: replace the mapped value if the key is present,
otherwise append a fresh entry (the embedding's stand-in for the
unordered-map's unspecified placement). -/
def Entries.set : Entries → String → Node → Entries
  | .nil, k, v => .cons k v .nil
  | .cons k' v' rest, k, v =>
      if k' = k then .cons k' v rest else .cons k' v' (rest.set k v)

/-- Removal `children.erase(k)`: drop the keyed entry (keys are unique). -/
def Entries.erase : Entries → String → Entries
  | .nil, _ => .nil
  | .cons k' v' rest, k =>
      if k' = k then rest else .cons k' v' (rest.erase k)

/-- Child names in iteration order (the loop of `Directory::ls`). -/
def Entries.keys : Entries → List String
  | .nil => []
  | .cons k _ rest => k :: rest.keys

/-- Mirror of `FileSystemNode::isDirectory`. -/
def Node.isDirectory : Node → Bool
  | .dir .. => true
  | .file .. => false

/-- Mirror of `FileSystemNode::getName`. -/
def Node.getName : Node → String
  | .dir n _ => n
  | .file n _ => n

/-- The `children` map of a directory; a `File` has none (the C++ code never
asks a `File` for children). -/
def Node.childrenOf : Node → Entries
  | .dir _ cs => cs
  | .file .. => .nil

/-- Descendant count of a directory's `children`, mirroring
`Directory::getSize` (Directory.cpp lines 4-13): each child counts one, and
directory children additionally contribute their own `getSize`.  (Note the
C++ loop does not add a file child's `getSize`.) -/
def entriesSize : Entries → Nat
  | .nil => 0
  | .cons _ (.dir _ cs) rest => 1 + entriesSize cs + entriesSize rest
  | .cons _ (.file _ _) rest => 1 + entriesSize rest

/-- Mirror of `FileSystemNode::getSize`: content length for a `File` (File.hpp line
26), descendant count for a `Directory`. -/
def Node.getSize : Node → Nat
  | .file _ c => c.length
  | .dir _ cs => entriesSize cs

end MiniShell

namespace MiniShell

/-! ## Directory operations (src/Directory.cpp)

Each `Directory` member function only touches the directory's `children`
map, so it is embedded as a function `Entries → Except Err Entries`. -/

/-- The name test of `Directory::mkdir` (Directory.cpp line 17):
`name.empty() || name.starts_with(".") || name.find('/') != npos`, on the
character list (`starts_with(".")` is a first-character test, `find('/')`
a containment test). -/
def badName (name : String) : Bool :=
  name.data.isEmpty
    || (match name.data with
        | c :: _ => c = '.'
        | [] => false)
    || name.data.contains '/'

/-- Mirror of `Directory::mkdir` (Directory.cpp lines 15-28). -/
def dirMkdir (cs : Entries) (name : String) : Except Err Entries :=
  if badName name then .error (.invalidName name)
  else if cs.hasKey name then .error (.dirAlreadyExists name)
  else .ok (cs.set name (.dir name .nil))

/-- Mirror of `Directory::rmEmptyDir` (Directory.cpp lines 30-47). -/
def dirRmEmptyDir (cs : Entries) (name : String) : Except Err Entries :=
  match cs.find name with
  | none => .error (.dirDoesNotExist name)
  | some n =>
      if ¬ n.isDirectory then
        .error (.invalidOperation ("Target is not a directory: " ++ name))
      else if n.getSize > 0 then .error (.dirNotEmpty name)
      else .ok (cs.erase name)

/-- Mirror of `Directory::rmEntireDir` (Directory.cpp lines 49-62). -/
def dirRmEntireDir (cs : Entries) (name : String) : Except Err Entries :=
  match cs.find name with
  | none => .error (.dirDoesNotExist name)
  | some n =>
      if ¬ n.isDirectory then
        .error (.invalidOperation ("Target is not a directory: " ++ name))
      else .ok (cs.erase name)

/-- Mirror of `Directory::rmFile` (Directory.cpp lines 64-77). -/
def dirRmFile (cs : Entries) (name : String) : Except Err Entries :=
  match cs.find name with
  | none => .error (.fileDoesNotExist name)
  | some n =>
      if n.isDirectory then
        .error (.invalidOperation ("Target is not a file: " ++ name))
      else .ok (cs.erase name)

/-- Mirror of `Directory::createOrUpdateFile` (Directory.cpp lines 84-95):
an existing file is left untouched (only its timestamp would change), an
existing directory is a conflict, otherwise a fresh empty file is inserted.
Note: unlike `mkdir`, there is no name validation here. -/
def dirCreateOrUpdateFile (cs : Entries) (name : String) : Except Err Entries :=
  match cs.find name with
  | some n =>
      if n.isDirectory then
        .error (.invalidOperation ("Directory with name: " ++ name ++ " already exists"))
      else .ok cs
  | none => .ok (cs.set name (.file name ""))

/-- Mirror of `File::write` (File.cpp lines 3-8): clear unless appending,
then `fileContent += message + "\n"`. -/
def fileWrite (content message : String) (append : Bool) : String :=
  (if append then content else "") ++ message ++ "\n"

/-! ## File-system state and navigation (src/FileSystemManager.cpp)

The manager holds `root` (a `Directory` named `""`) and `cwd`, a pointer to
some directory of the tree.  The embedding replaces the `cwd` pointer by the
path of child keys from the root to that directory; `[]` is the root and one
`parent.lock()` step is `List.dropLast`. -/

structure FS where
  root : Node
  cwd : List String
  deriving DecidableEq, Repr

/-- Mirror of `FileSystemManager::FileSystemManager`: root is `Directory("")`, cwd is
the root. -/
def FS.init : FS := ⟨.dir "" .nil, []⟩

/-- Follow a path of child keys from a node.  Looking below a `File` fails
(a `File` has no children). -/
def getNode : Node → List String → Option Node
  | n, [] => some n
  | n, s :: p =>
      match n.childrenOf.find s with
      | none => none
      | some c => getNode c p

/-- The child map entry `k` of the directory at path `p`. -/
def getChild (root : Node) (p : List String) (k : String) : Option Node :=
  match getNode root p with
  | some n => n.childrenOf.find k
  | none => none

/-- Path `p` denotes a directory of the tree (the property that the C++
`cwd` pointer has by construction). -/
def validDirPath (root : Node) (p : List String) : Bool :=
  match getNode root p with
  | some (.dir ..) => true
  | _ => false

/-- Property that `cwd` is a directory reachable from the root. -/
def FS.cwdValid (fs : FS) : Bool :=
  validDirPath fs.root fs.cwd

/-- The ascent loop `while (node != root && ups--) node = node->parent.lock()`
(FileSystemManager.cpp lines 236-239 and the two copies of it): ascend one
level per hop, stopping at the root. -/
def dropUps : List String → Nat → List String
  | p, 0 => p
  | [], _ + 1 => []
  | p@(_ :: _), u + 1 => dropUps p.dropLast u

/-- The descent loop of `FileSystemManager::navigateToDirectory`
(FileSystemManager.cpp lines 242-257): each segment must name an existing
child (`DirectoryDoesNotExist`) that is a directory (`InvalidPathException`).
The walked node is carried together with its path. -/
def descendNav : Node → List String → List String → Except Err (List String)
  | _, cur, [] => .ok cur
  | n, cur, s :: rest =>
      match n.childrenOf.find s with
      | none => .error (.dirDoesNotExist s)
      | some c =>
          if c.isDirectory then descendNav c (cur ++ [s]) rest
          else .error (.invalidPath (s ++ " is not a directory"))

/-- Mirror of `FileSystemManager::navigateToDirectory` (FileSystemManager.cpp
lines 227-260): validate the path, pick the start (root for ROOT-anchored
paths, otherwise `start` raised by `ups` parent hops), then descend through
the split remainder.  The `none` branch is unreachable when `start` is a
valid directory path, which every caller guarantees. -/
def FS.navigateToDirectory (fs : FS) (path : String) (start : List String) :
    Except Err (List String) := do
  let pp ← validatePath path
  let base := if pp.type = .ROOT then [] else dropUps start pp.ups
  match getNode fs.root base with
  | some n => descendNav n base (splitSegs pp.rest)
  | none => .error (.invalidPath path)

/-- Mirror of `FileSystemManager::cd` (lines 14-17): `cwd` is assigned only when
navigation returns normally. -/
def FS.cd (fs : FS) (path : String) : Except Err FS := do
  let p ← fs.navigateToDirectory path fs.cwd
  .ok { fs with cwd := p }

/-- Mirror of `FileSystemManager::ls` (lines 19-24): list the cwd, or the directory
navigated to when a non-empty path is given. -/
def FS.ls (fs : FS) (path : String) : Except Err (List String) := do
  let p ← if path.isEmpty then pure fs.cwd
          else fs.navigateToDirectory path fs.cwd
  match getNode fs.root p with
  | some n => .ok n.childrenOf.keys
  | none => .error (.invalidPath path)

/-- Rebuild the tree with the `children` of the directory at path `p`
replaced by `cs'` (total companion of `updateAt` below; on a path that does
not lead to a directory it changes nothing). -/
def replaceAt : Node → List String → Entries → Node
  | .dir nm _, [], cs' => .dir nm cs'
  | n, [], _ => n
  | .dir nm cs, s :: rest, cs' =>
      match cs.find s with
      | some c => .dir nm (cs.set s (replaceAt c rest cs'))
      | none => .dir nm cs
  | n, _ :: _, _ => n

/-- Apply an operation to the `children` of the directory at path `p` and
rebuild the tree around the result.  This is how the embedding renders a
C++ member-function call on the directory the `cwd` pointer designates; the
error branches for a broken path are unreachable for the valid paths the
manager uses. -/
def updateAt : Node → List String → (Entries → Except Err Entries) → Except Err Node
  | .dir nm cs, [], f => do
      let cs' ← f cs
      .ok (.dir nm cs')
  | .file nm _, [], _ => .error (.invalidPath (nm ++ " is not a directory"))
  | .dir nm cs, s :: rest, f =>
      match cs.find s with
      | none => .error (.dirDoesNotExist s)
      | some c => do
          let c' ← updateAt c rest f
          .ok (.dir nm (cs.set s c'))
  | .file nm _, _ :: _, _ => .error (.invalidPath (nm ++ " is not a directory"))

/-- Run a children-map operation on the cwd directory (the pattern
`cwd->member(...)` of FileSystemManager.cpp). -/
def FS.modifyCwd (fs : FS) (f : Entries → Except Err Entries) : Except Err FS := do
  let root' ← updateAt fs.root fs.cwd f
  .ok { fs with root := root' }

/-- Mirror of `FileSystemManager::mkdir` (lines 26-29): `cwd->mkdir(name)`. -/
def FS.mkdir (fs : FS) (name : String) : Except Err FS :=
  fs.modifyCwd (fun cs => dirMkdir cs name)

/-- Mirror of `FileSystemManager::rmdir` (lines 31-35). -/
def FS.rmdir (fs : FS) (name : String) (recursive : Bool) : Except Err FS :=
  fs.modifyCwd (fun cs =>
    if ¬ recursive then dirRmEmptyDir cs name else dirRmEntireDir cs name)

/-- Mirror of `FileSystemManager::rm` (lines 37-40). -/
def FS.rm (fs : FS) (name : String) : Except Err FS :=
  fs.modifyCwd (fun cs => dirRmFile cs name)

/-- Mirror of `FileSystemManager::touch` (lines 42-45): `cwd->createOrUpdateFile`. -/
def FS.touch (fs : FS) (name : String) : Except Err FS :=
  fs.modifyCwd (fun cs => dirCreateOrUpdateFile cs name)

/-- The body of `FileSystemManager::writeToFile` (lines 47-61), acting on
the cwd's children: look the name up, create the file via touch semantics
when absent, reject a directory, then `File::write`. -/
def dirWriteToFile (cs : Entries) (fileName message : String) (append : Bool) :
    Except Err Entries := do
  let cs1 ← match cs.find fileName with
            | some _ => pure cs
            | none => dirCreateOrUpdateFile cs fileName
  match cs1.find fileName with
  | some (.dir ..) => .error (.invalidPath (fileName ++ " is not a file"))
  | some (.file nm content) =>
      .ok (cs1.set fileName (.file nm (fileWrite content message append)))
  | none => .error (.fileDoesNotExist fileName)

/-- Mirror of `FileSystemManager::writeToFile` (lines 47-61). -/
def FS.writeToFile (fs : FS) (fileName message : String) (append : Bool) :
    Except Err FS :=
  fs.modifyCwd (fun cs => dirWriteToFile cs fileName message append)

/-- Mirror of `FileSystemManager::readFile` (lines 63-76): absent name throws
`FileDoesNotExist`, a directory throws `InvalidPathException`, otherwise the
content is returned verbatim. -/
def FS.readFile (fs : FS) (fileName : String) : Except Err String :=
  match getNode fs.root fs.cwd with
  | some n =>
      match n.childrenOf.find fileName with
      | none => .error (.fileDoesNotExist fileName)
      | some (.dir ..) => .error (.invalidPath (fileName ++ " is not a file"))
      | some (.file _ content) => .ok content
  | none => .error (.invalidPath fileName)

end MiniShell

namespace MiniShell

/-! ## Copy and move (FileSystemManager.cpp lines 78-225) -/

/-- Result of `FileSystemManager::resolveSource`: the C++ returns the tuple
`(parentDir, fileName, nullptr)` for a file source and
`(nullptr, "", srcNode)` for a directory source.  `fileName` is non-empty
exactly in the file case (path segments are never empty strings). -/
inductive Source where
  | fileSrc (parent : List String) (name : String)
  | dirSrc (path : List String)
  deriving DecidableEq, Repr

/-- The segment loop of `resolveSource` (FileSystemManager.cpp lines
151-166): a missing segment throws `InvalidPathException(part)`; a file at a
non-final segment throws `InvalidOperationException`; a file at the final
segment stops the walk with `fileName` set. -/
def resolveParts : Node → List String → List String → Except Err Source
  | _, cur, [] => .ok (.dirSrc cur)
  | n, cur, s :: rest =>
      match n.childrenOf.find s with
      | none => .error (.invalidPath s)
      | some c =>
          if ¬ c.isDirectory then
            if rest ≠ [] then
              .error (.invalidOperation "File cannot contain a directory")
            else .ok (.fileSrc cur s)
          else resolveParts c (cur ++ [s]) rest

/-- Mirror of `FileSystemManager::resolveSource` (lines 136-177): anchor and
parent hops as in navigation, the segment walk, then the recursive-flag
consistency checks of lines 168-169. -/
def FS.resolveSource (fs : FS) (srcPath : String) (recursive : Bool) :
    Except Err Source := do
  let pp ← validatePath srcPath
  let base := if pp.type = .ROOT then [] else dropUps fs.cwd pp.ups
  let src ← match getNode fs.root base with
            | some n => resolveParts n base (splitSegs pp.rest)
            | none => .error (.invalidPath srcPath)
  match src with
  | .fileSrc _ _ =>
      if recursive then
        .error (.invalidOperation "Cannot recursively copy/move a file")
      else .ok src
  | .dirSrc _ =>
      if ¬ recursive then
        .error (.invalidOperation "Cannot non-recursively copy/move a directory")
      else .ok src

/-- The segment loop of `resolveDestination` (FileSystemManager.cpp lines
193-201): like navigation but a missing segment throws
`InvalidPathException(part)` and a file segment throws
`InvalidPathException(part + " is not a directory")`. -/
def descendDst : Node → List String → List String → Except Err (List String)
  | _, cur, [] => .ok cur
  | n, cur, s :: rest =>
      match n.childrenOf.find s with
      | none => .error (.invalidPath s)
      | some c =>
          if c.isDirectory then descendDst c (cur ++ [s]) rest
          else .error (.invalidPath (s ++ " is not a directory"))

/-- Mirror of `FileSystemManager::resolveDestination` (lines 179-204). -/
def FS.resolveDestination (fs : FS) (dstPath : String) :
    Except Err (List String) := do
  let pp ← validatePath dstPath
  let base := if pp.type = .ROOT then [] else dropUps fs.cwd pp.ups
  match getNode fs.root base with
  | some n => descendDst n base (splitSegs pp.rest)
  | none => .error (.invalidPath dstPath)

/-- Test that `as` is a prefix of `bs` (as paths: the node at `as` is the node at `bs`
or one of its ancestors). -/
def isPre : List String → List String → Bool
  | [], _ => true
  | _ :: _, [] => false
  | a :: as, b :: bs => a = b && isPre as bs

/-- Mirror of `FileSystemManager::validateCopyOrMove` (lines 206-225), on
paths.  The C++ `while (current) { if (current == srcNode) throw; current =
current->parent.lock(); }` walks the ancestor chain of the destination; the
ancestors of path `dstP` (itself included, root included) are exactly its
prefixes, so the walk finds the source iff `isPre srcP dstP` — and the two
prefix cases `srcP = dstP` and `srcP = []` (root) have already been thrown
by the first two checks.  The final check needs the source node's name; the
lookup-failure branch is unreachable because both paths were just
resolved. -/
def FS.validateCopyOrMove (fs : FS) (srcP dstP : List String) : Except Err Unit :=
  if srcP = dstP then
    .error (.invalidOperation "Cannot copy a directory into itself")
  else if srcP = [] then
    .error (.invalidOperation "Cannot copy the root directory")
  else if isPre srcP dstP then
    .error (.invalidOperation "Cannot copy a directory into its own subdirectory")
  else
    match getNode fs.root srcP, getNode fs.root dstP with
    | some srcN, some dstN =>
        if dstN.childrenOf.hasKey srcN.getName then
          .error
            (.invalidOperation
              "Destination already contains a directory/file with the same name")
        else .ok ()
    | _, _ => .ok ()

mutual

/-- Mirror of `FileSystemManager::copyDirectory` (lines 95-113) as a value:
the C++ builds, in child-iteration order, fresh `Directory`/`File` nodes
with the same names and contents; the value it hangs under the destination
is `deepCopy` of the source node. -/
def deepCopy : Node → Node
  | .dir nm cs => .dir nm (deepCopyE cs)
  | .file nm c => .file nm c

def deepCopyE : Entries → Entries
  | .nil => .nil
  | .cons k v rest => .cons k (deepCopy v) (deepCopyE rest)

end

/-- Mirror of `FileSystemManager::cp` (lines 78-93).  File source: a fresh
`File` with the source's name and content is assigned into the destination
map with `operator[]` — `Entries.set`, which replaces any existing entry
under that name.  Directory source: validate, then hang a deep copy under
the destination (the validation just rejected an existing entry under that
name, so this `set` appends). -/
def FS.cp (fs : FS) (srcPath dstPath : String) (recursive : Bool) :
    Except Err FS := do
  let src ← fs.resolveSource srcPath recursive
  let dstP ← fs.resolveDestination dstPath
  match src with
  | .fileSrc parentP fileName =>
      -- `asNode<File>(parentDir->children[fileName])`: `resolveSource` placed a
      -- file there, so the two failure arms below are unreachable (in C++ the
      -- cast would throw `std::runtime_error`).
      match getChild fs.root parentP fileName with
      | some (.file nm content) => do
          let root' ← updateAt fs.root dstP
            (fun cs => .ok (cs.set nm (.file nm content)))
          .ok { fs with root := root' }
      | _ => .error (.runtimeCastError "Expected node of type: File")
  | .dirSrc srcP => do
      fs.validateCopyOrMove srcP dstP
      match getNode fs.root srcP with
      | some srcN => do
          let root' ← updateAt fs.root dstP
            (fun cs => .ok (cs.set srcN.getName (deepCopy srcN)))
          .ok { fs with root := root' }
      | none => .error (.invalidPath srcPath)

/-- Mirror of `FileSystemManager::mv` (lines 115-134).  File source: erase
the entry from the source parent's map, then assign the very same node into
the destination map under the key `fileName` — again `operator[]`, replacing
any existing entry.  Directory source: validate, erase the source node from
its parent (keyed by the node's stored name, line 130), and assign it under
the destination.

The C++ `cwd` pointer keeps designating the same node throughout; if the
moved directory subtree contains the cwd, the pointer's path after the move
is the destination path extended with the moved node's key and the old
suffix, which is what the `cwd` adjustment below computes.  (When a file
move replaces a directory that lay on the cwd's path — the silent-overwrite
case — the C++ cwd is left on a node detached from the root; in the path
model the old path simply no longer resolves, so in both renderings the cwd
stops being reachable from the root.) -/
def FS.mv (fs : FS) (srcPath dstPath : String) (recursive : Bool) :
    Except Err FS := do
  let src ← fs.resolveSource srcPath recursive
  let dstP ← fs.resolveDestination dstPath
  match src with
  | .fileSrc parentP fileName =>
      -- `asNode<File>` again: `resolveSource` guarantees a file here.
      match getChild fs.root parentP fileName with
      | some (.file fnm fc) => do
          let root1 ← updateAt fs.root parentP (fun cs => .ok (cs.erase fileName))
          let root2 ← updateAt root1 dstP
            (fun cs => .ok (cs.set fileName (.file fnm fc)))
          .ok { fs with root := root2 }
      | _ => .error (.runtimeCastError "Expected node of type: File")
  | .dirSrc srcP => do
      fs.validateCopyOrMove srcP dstP
      match getNode fs.root srcP with
      | some srcN => do
          let root1 ← updateAt fs.root srcP.dropLast
            (fun cs => .ok (cs.erase srcN.getName))
          let root2 ← updateAt root1 dstP
            (fun cs => .ok (cs.set srcN.getName srcN))
          let cwd' := if isPre srcP fs.cwd then
                        dstP ++ fs.cwd.drop (srcP.length - 1)
                      else fs.cwd
          .ok { root := root2, cwd := cwd' }
      | none => .error (.invalidPath srcPath)

end MiniShell

namespace MiniShell

/-! ## Substring search (Utility/Utils.hpp `KMPSolver`, FileSystemManager.cpp
`grep` / `dfsAndGrep`) -/

/-- Mirror of `std::string::operator[]` on the pattern: positions below the size give
the character, position `size` gives the null character (guaranteed by
C++11).  The loops below never index farther. -/
def sget (s : List Char) (i : Nat) : Char :=
  s.getD i (Char.ofNat 0)

/-- The failure-function construction loop of `KMPSolver::solve` (Utils.hpp
lines 86-100), with an explicit fuel in place of the C++ `while`; the fuel
passed by `kmpSolve` exceeds the loop's iteration count, which is bounded
because each step either advances `i` or strictly decreases `j`. -/
def lpsLoop (pattern : List Char) : Nat → Nat → Nat → List Nat → List Nat
  | 0, _, _, lps => lps
  | fuel + 1, i, j, lps =>
      if i < pattern.length then
        if sget pattern i = sget pattern j then
          lpsLoop pattern fuel (i + 1) (j + 1) (lps.set i (j + 1))
        else if j = 0 then
          lpsLoop pattern fuel (i + 1) j lps
        else
          lpsLoop pattern fuel i (lps.getD (j - 1) 0) lps
      else lps

/-- The scanning loop of `KMPSolver::solve` (Utils.hpp lines 105-116): on a
character match advance both pointers and succeed when the pattern pointer
reaches the pattern size; on a mismatch advance the text pointer if `j` is
zero, otherwise fall back through the failure function.  Fuel exhaustion
returns the loop's fall-through value `false`. -/
def kmpLoop (text pattern : List Char) (lps : List Nat) :
    Nat → Nat → Nat → Bool
  | 0, _, _ => false
  | fuel + 1, i, j =>
      if i < text.length then
        if sget text i = sget pattern j then
          if j + 1 = pattern.length then true
          else kmpLoop text pattern lps fuel (i + 1) (j + 1)
        else if j = 0 then kmpLoop text pattern lps fuel (i + 1) j
        else kmpLoop text pattern lps fuel i (lps.getD (j - 1) 0)
      else false

/-- Mirror of `utility::KMPSolver::solve` (Utils.hpp lines 83-119): build the
`lps` table (a zero-initialised vector of the pattern's size), then scan.
The fuel bounds generously dominate the iteration counts argued above. -/
def kmpSolve (text pattern : String) : Bool :=
  let p := pattern.data
  let t := text.data
  let lps := lpsLoop p ((p.length + 1) * (p.length + 2)) 1 0
               (List.replicate p.length 0)
  kmpLoop t p lps ((t.length + 2) * (p.length + 2)) 0 0

/-- The non-recursive branch of `FileSystemManager::grep` (lines 267-275):
scan the immediate children in iteration order and report the names (map
keys) of the file children whose content matches. -/
def grepChildren : Entries → String → List String
  | .nil, _ => []
  | .cons name (.file _ content) rest, pattern =>
      (if kmpSolve content pattern then [name] else [])
        ++ grepChildren rest pattern
  | .cons _ (.dir ..) rest, pattern => grepChildren rest pattern

/-- The `"/"`-joining of the path stack, as built character by character in
`dfsAndGrep` (lines 295-301). -/
def joinPath (path : List String) : String :=
  String.intercalate "/" path

mutual

/-- Mirror of `FileSystemManager::dfsAndGrep` (lines 285-312): push the
node's own name on the path stack, then walk the children in iteration
order; a matching file contributes the joined path stack plus `"/" +` the
file's stored name, a directory is recursed into; finally pop.  The
push/pop pair becomes passing the extended path down. -/
def dfsAndGrep (n : Node) (pattern : String) (path : List String) : List String :=
  match n with
  | .dir nm cs => dfsEntries cs pattern (path ++ [nm])
  | .file .. => []

def dfsEntries (cs : Entries) (pattern : String) (path : List String) :
    List String :=
  match cs with
  | .nil => []
  | .cons _ child rest =>
      (match child with
       | .file fnm content =>
           if kmpSolve content pattern then [joinPath path ++ "/" ++ fnm] else []
       | .dir .. => dfsAndGrep child pattern path)
        ++ dfsEntries rest pattern path

end

/-- Mirror of `FileSystemManager::grep` (lines 262-283): navigate to the
directory, collect matches (single level or depth-first), and return
`std::nullopt` when nothing matched. -/
def FS.grep (fs : FS) (path pattern : String) (recursive : Bool) :
    Except Err (Option (List String)) := do
  let p ← fs.navigateToDirectory path fs.cwd
  match getNode fs.root p with
  | some n =>
      let res := if ¬ recursive then grepChildren n.childrenOf pattern
                 else dfsAndGrep n pattern []
      .ok (if res.isEmpty then none else some res)
  | none => .error (.invalidPath path)

/-! ## Serialization (FileSystemManager.cpp lines 314-337)

`FileSystemManager::json` is `nlohmann::json`; the fragment of it the
serializer can produce is modelled by `Json`: `null` (the
default-constructed value `json j;`), strings, and objects. -/

mutual

inductive Json where
  | null
  | str (s : String)
  | obj (fields : JFields)
  deriving DecidableEq, Repr

inductive JFields where
  | nil
  | cons (key : String) (val : Json) (rest : JFields)
  deriving DecidableEq, Repr

end

/-- Keyed update of an object's field list (replace or append), the object
part of `nlohmann`'s `j[name] = v`. -/
def JFields.set : JFields → String → Json → JFields
  | .nil, k, v => .cons k v .nil
  | .cons k' v' rest, k, v =>
      if k' = k then .cons k' v rest else .cons k' v' (rest.set k v)

/-- Assignment `j[name] = v` on `nlohmann::json`: a null value silently becomes an
object first; on an object the field is inserted or replaced.  (On a string
`nlohmann` would throw; the serializer never does that, since `j` starts
null and only ever becomes an object.) -/
def Json.setField : Json → String → Json → Json
  | .null, k, v => .obj (.cons k v .nil)
  | .obj fields, k, v => .obj (fields.set k v)
  | .str s, _, _ => .str s

/-- Keyed lookup in a field list. -/
def JFields.findJ : JFields → String → Option Json
  | .nil, _ => none
  | .cons k v rest, k' => if k = k' then some v else rest.findJ k'

/-- Keyed lookup in a serialized object, for stating claims about single
children irrespective of sibling order. -/
def Json.field : Json → String → Option Json
  | .obj fields, k => fields.findJ k
  | _, _ => none

mutual

/-- Mirror of `FileSystemManager::directoryToJson` (lines 320-337): start
from the default-constructed (null!) `json j;` and assign one field per
child in iteration order — directory children recursively, file children as
their content string.  A childless directory therefore serializes to
`null`, not to an empty object. -/
def directoryToJson : Node → Json
  | .file .. => .null
  | .dir _ cs => entriesToJson cs .null

def entriesToJson : Entries → Json → Json
  | .nil, j => j
  | .cons name child rest, j =>
      entriesToJson rest
        (j.setField name
          (match child with
           | .dir .. => directoryToJson child
           | .file _ content => .str content))

end

/-- Mirror of `FileSystemManager::convertToJson` (lines 314-318). -/
def FS.convertToJson (fs : FS) (path : String) : Except Err Json := do
  let p ← fs.navigateToDirectory path fs.cwd
  match getNode fs.root p with
  | some n => .ok (directoryToJson n)
  | none => .error (.invalidPath path)

/-! ## The manager's state-affecting API as a step relation

For invariant claims: one constructor per public `FileSystemManager`
operation that can change the manager's state (`cwd` or the tree).  A C++
call that throws leaves the manager unchanged — each operation above either
fails before its first mutation or completes — so `runOp` keeps the old
state on an error. -/

inductive Op where
  | cd (path : String)
  | mkdir (name : String)
  | rmdir (name : String) (recursive : Bool)
  | rm (name : String)
  | touch (name : String)
  | write (name text : String) (append : Bool)
  | cp (src dst : String) (recursive : Bool)
  | mv (src dst : String) (recursive : Bool)
  deriving DecidableEq, Repr

def applyOp (fs : FS) : Op → Except Err FS
  | .cd p => fs.cd p
  | .mkdir n => fs.mkdir n
  | .rmdir n r => fs.rmdir n r
  | .rm n => fs.rm n
  | .touch n => fs.touch n
  | .write n t a => fs.writeToFile n t a
  | .cp s d r => fs.cp s d r
  | .mv s d r => fs.mv s d r

def runOp (fs : FS) (op : Op) : FS :=
  match applyOp fs op with
  | .ok fs' => fs'
  | .error _ => fs

def runOps (fs : FS) (ops : List Op) : FS :=
  ops.foldl runOp fs

end MiniShell

namespace MiniShell

/-! ## Basic laws of the children map -/

instance exceptDecEq {ε α : Type} [DecidableEq ε] [DecidableEq α] :
    DecidableEq (Except ε α)
  | .ok a, .ok b =>
      if h : a = b then isTrue (by rw [h]) else isFalse (by simp [h])
  | .ok _, .error _ => isFalse (by simp)
  | .error _, .ok _ => isFalse (by simp)
  | .error e, .error f =>
      if h : e = f then isTrue (by rw [h]) else isFalse (by simp [h])

theorem exBindOk {α β : Type} (a : α) (f : α → Except Err β) :
    (Except.ok a >>= f : Except Err β) = f a := rfl

theorem exBindErr {α β : Type} (e : Err) (f : α → Except Err β) :
    (Except.error e >>= f : Except Err β) = .error e := rfl

theorem Entries.find_set_self : ∀ (cs : Entries) (k : String) (v : Node),
    (cs.set k v).find k = some v
  | .nil, k, v => by simp [Entries.set, Entries.find]
  | .cons k' v' rest, k, v => by
      by_cases h : k' = k
      · simp [Entries.set, h, Entries.find]
      · simp [Entries.set, h, Entries.find, Entries.find_set_self rest k v]

theorem Entries.find_set_other : ∀ (cs : Entries) {k k₂ : String} (v : Node),
    k ≠ k₂ → (cs.set k v).find k₂ = cs.find k₂
  | .nil, k, k₂, v, h => by simp [Entries.set, Entries.find, h]
  | .cons k' v' rest, k, k₂, v, h => by
      by_cases hk : k' = k
      · subst hk; simp [Entries.set, Entries.find, h]
      · simp [Entries.set, hk, Entries.find,
              Entries.find_set_other rest v h]

theorem Entries.find_erase_other : ∀ (cs : Entries) {k k₂ : String},
    k ≠ k₂ → (cs.erase k).find k₂ = cs.find k₂
  | .nil, k, k₂, h => by simp [Entries.erase]
  | .cons k' v' rest, k, k₂, h => by
      by_cases hk : k' = k
      · subst hk; simp [Entries.erase, Entries.find, h]
      · simp [Entries.erase, hk, Entries.find,
              Entries.find_erase_other rest h]

/-! ## Laws of path prefixes and parent hops -/

theorem isPre_refl (p : List String) : isPre p p = true := by
  induction p with
  | nil => rfl
  | cons a p ih => simp [isPre, ih]

theorem isPre_nil (p : List String) : isPre [] p = true := rfl

theorem isPre_trans {p q r : List String} (h₁ : isPre p q = true)
    (h₂ : isPre q r = true) : isPre p r = true := by
  induction p generalizing q r with
  | nil => rfl
  | cons a p ih =>
      cases q with
      | nil => simp [isPre] at h₁
      | cons b q =>
          cases r with
          | nil => simp [isPre] at h₂
          | cons c r =>
              simp [isPre] at h₁ h₂ ⊢
              exact ⟨h₁.1.trans h₂.1, ih h₁.2 h₂.2⟩

theorem isPre_antisymm {p q : List String} (h₁ : isPre p q = true)
    (h₂ : isPre q p = true) : p = q := by
  induction p generalizing q with
  | nil => cases q with
      | nil => rfl
      | cons b q => simp [isPre] at h₂
  | cons a p ih =>
      cases q with
      | nil => simp [isPre] at h₁
      | cons b q =>
          simp [isPre] at h₁ h₂
          exact by rw [h₁.1, ih h₁.2 h₂.2]

theorem isPre_dropLast (p : List String) : isPre p.dropLast p = true := by
  induction p with
  | nil => rfl
  | cons a p ih =>
      cases p with
      | nil => rfl
      | cons b q => simpa [isPre] using ih

theorem isPre_dropUps (p : List String) (u : Nat) :
    isPre (dropUps p u) p = true := by
  induction u generalizing p with
  | zero => simpa [dropUps] using isPre_refl p
  | succ u ih =>
      cases p with
      | nil => simp [dropUps, isPre]
      | cons a q =>
          exact isPre_trans (ih (a :: q).dropLast) (isPre_dropLast (a :: q))

/-- Ascending more levels than the current depth stops at the root: the
`node != root` guard of the ascent loop. -/
theorem dropUps_of_le (p : List String) (u : Nat) (h : p.length ≤ u) :
    dropUps p u = [] := by
  induction u generalizing p with
  | zero => cases p with
      | nil => rfl
      | cons a q => simp at h
  | succ u ih =>
      cases p with
      | nil => rfl
      | cons a q =>
          have hl : (a :: q).dropLast.length ≤ u := by
            simp [List.length_dropLast] at h ⊢; omega
          simpa [dropUps] using ih _ hl

theorem isPre_append (p q : List String) : isPre p (p ++ q) = true := by
  induction p with
  | nil => rfl
  | cons a p ih => simp [isPre, ih]

/-- Unfolding `isPre p q` exposes the suffix. -/
theorem isPre_iff_exists {p q : List String} :
    isPre p q = true ↔ ∃ r, q = p ++ r := by
  constructor
  · intro h
    induction p generalizing q with
    | nil => exact ⟨q, rfl⟩
    | cons a p ih =>
        cases q with
        | nil => simp [isPre] at h
        | cons b q =>
            simp [isPre] at h
            obtain ⟨r, hr⟩ := ih h.2
            exact ⟨r, by simp [h.1, hr]⟩
  · rintro ⟨r, rfl⟩; exact isPre_append p r

/-! ## Laws of `getNode` and `replaceAt` -/

theorem getNode_append (n : Node) (p q : List String) :
    getNode n (p ++ q) = (getNode n p).bind (fun m => getNode m q) := by
  induction p generalizing n with
  | nil => simp [getNode]
  | cons s p ih =>
      simp only [List.cons_append, getNode]
      cases h : n.childrenOf.find s with
      | none => simp
      | some c => simp [ih]

theorem validDirPath_iff {n : Node} {p : List String} :
    validDirPath n p = true ↔ ∃ nm cs, getNode n p = some (.dir nm cs) := by
  unfold validDirPath
  cases h : getNode n p with
  | none => simp
  | some m => cases m with
      | dir nm cs => simp
      | file nm c => simp

/-- Every prefix of a valid directory path is a valid directory path (the
nodes a pointer path passes through are directories). -/
theorem validDirPath_of_isPre {n : Node} {p q : List String}
    (hq : validDirPath n q = true) (hpre : isPre p q = true) :
    validDirPath n p = true := by
  obtain ⟨r, rfl⟩ := isPre_iff_exists.mp hpre
  obtain ⟨nm, cs, hget⟩ := validDirPath_iff.mp hq
  rw [getNode_append] at hget
  cases hp : getNode n p with
  | none => rw [hp] at hget; simp at hget
  | some m =>
      rw [hp] at hget; simp at hget
      cases m with
      | dir nm' cs' => simp [validDirPath, hp]
      | file nm' c' =>
          cases r with
          | nil => simp [getNode] at hget
          | cons s r => simp [getNode, Node.childrenOf, Entries.find] at hget

theorem getNode_replaceAt_self {n : Node} {p : List String} {nm : String}
    {cs : Entries} (h : getNode n p = some (.dir nm cs)) (cs' : Entries) :
    getNode (replaceAt n p cs') p = some (.dir nm cs') := by
  induction p generalizing n with
  | nil =>
      simp [getNode] at h
      subst h
      simp [replaceAt, getNode]
  | cons s p ih =>
      cases n with
      | file nm' c' => simp [getNode, Node.childrenOf, Entries.find] at h
      | dir nm' cs₀ =>
          simp only [getNode, Node.childrenOf] at h
          cases hf : cs₀.find s with
          | none => rw [hf] at h; simp at h
          | some c =>
              rw [hf] at h; simp at h
              simp only [replaceAt, hf, getNode, Node.childrenOf]
              rw [Entries.find_set_self]
              exact ih h

theorem getNode_replaceAt_append {n : Node} {p : List String} {nm : String}
    {cs : Entries} (h : getNode n p = some (.dir nm cs)) (cs' : Entries)
    (q : List String) :
    getNode (replaceAt n p cs') (p ++ q) = getNode (.dir nm cs') q := by
  rw [getNode_append, getNode_replaceAt_self h cs']
  rfl

/-- A path that diverges from the replaced path (neither is a prefix of the
other) reads the same node before and after the replacement. -/
theorem getNode_replaceAt_divergent {n : Node} {p : List String} {nm : String}
    {cs : Entries} (h : getNode n p = some (.dir nm cs)) (cs' : Entries)
    {q : List String} (h₁ : isPre p q = false) (h₂ : isPre q p = false) :
    getNode (replaceAt n p cs') q = getNode n q := by
  induction p generalizing n q with
  | nil => simp [isPre] at h₁
  | cons s p ih =>
      cases n with
      | file nm' c' => simp [getNode, Node.childrenOf, Entries.find] at h
      | dir nm' cs₀ =>
          simp only [getNode, Node.childrenOf] at h
          cases hf : cs₀.find s with
          | none => rw [hf] at h; simp at h
          | some c =>
              rw [hf] at h; simp at h
              cases q with
              | nil => simp [isPre] at h₂
              | cons t q' =>
                  by_cases hts : s = t
                  · subst hts
                    simp [isPre] at h₁ h₂
                    simp only [replaceAt, hf, getNode, Node.childrenOf]
                    rw [Entries.find_set_self]
                    simpa [hf] using ih h h₁ h₂
                  · simp only [replaceAt, hf, getNode, Node.childrenOf]
                    rw [Entries.find_set_other _ _ hts]

/-- A strict prefix of the replaced path still denotes a directory after the
replacement (its children change at one key, its kind and name do not). -/
theorem validDirPath_replaceAt_of_strict {n : Node} {p : List String}
    {nm : String} {cs : Entries} (h : getNode n p = some (.dir nm cs))
    (cs' : Entries) {q : List String} (hpre : isPre q p = true)
    (hvq : validDirPath n q = true) :
    validDirPath (replaceAt n p cs') q = true := by
  induction p generalizing n q with
  | nil =>
      simp [getNode] at h
      subst h
      cases q with
      | nil => simp [replaceAt, validDirPath, getNode]
      | cons t q' => simp [isPre] at hpre
  | cons s p ih =>
      cases n with
      | file nm' c' => simp [getNode, Node.childrenOf, Entries.find] at h
      | dir nm' cs₀ =>
          simp only [getNode, Node.childrenOf] at h
          cases hf : cs₀.find s with
          | none => rw [hf] at h; simp at h
          | some c =>
              rw [hf] at h; simp at h
              cases q with
              | nil => simp [replaceAt, hf, validDirPath, getNode]
              | cons t q' =>
                  simp [isPre] at hpre
                  obtain ⟨rfl, hpre'⟩ := hpre
                  have hvq' : validDirPath c q' = true := by
                    simpa [validDirPath, getNode, Node.childrenOf, hf] using hvq
                  have := ih h hpre' hvq'
                  simpa [replaceAt, hf, validDirPath, getNode, Node.childrenOf,
                         Entries.find_set_self] using this

/-! ## Laws of `updateAt` -/

theorem updateAt_ok {n : Node} {p : List String} {nm : String} {cs : Entries}
    (h : getNode n p = some (.dir nm cs)) {f : Entries → Except Err Entries}
    {cs' : Entries} (hf : f cs = .ok cs') :
    updateAt n p f = .ok (replaceAt n p cs') := by
  induction p generalizing n with
  | nil =>
      simp [getNode] at h
      subst h
      simp [updateAt, replaceAt, hf, exBindOk]
  | cons s p ih =>
      cases n with
      | file nm' c' => simp [getNode, Node.childrenOf, Entries.find] at h
      | dir nm' cs₀ =>
          simp only [getNode, Node.childrenOf] at h
          cases hfind : cs₀.find s with
          | none => rw [hfind] at h; simp at h
          | some c =>
              rw [hfind] at h; simp at h
              simp [updateAt, hfind, ih h, replaceAt, exBindOk]

theorem updateAt_err {n : Node} {p : List String} {nm : String} {cs : Entries}
    (h : getNode n p = some (.dir nm cs)) {f : Entries → Except Err Entries}
    {e : Err} (hf : f cs = .error e) : updateAt n p f = .error e := by
  induction p generalizing n with
  | nil =>
      simp [getNode] at h
      subst h
      simp [updateAt, hf, exBindErr]
  | cons s p ih =>
      cases n with
      | file nm' c' => simp [getNode, Node.childrenOf, Entries.find] at h
      | dir nm' cs₀ =>
          simp only [getNode, Node.childrenOf] at h
          cases hfind : cs₀.find s with
          | none => rw [hfind] at h; simp at h
          | some c =>
              rw [hfind] at h; simp at h
              simp [updateAt, hfind, ih h, exBindErr]

end MiniShell

namespace MiniShell

/-! ## Navigation and resolution reach directories of the tree -/

theorem descendNav_valid {root : Node} {segs : List String} :
    ∀ {n : Node} {cur res : List String},
    getNode root cur = some n →
    validDirPath root cur = true →
    descendNav n cur segs = .ok res →
    validDirPath root res = true := by
  induction segs with
  | nil =>
      intro n cur res _ hv h
      simp [descendNav] at h
      simpa [← h] using hv
  | cons s rest ih =>
      intro n cur res hget hv h
      simp only [descendNav] at h
      cases hf : n.childrenOf.find s with
      | none => rw [hf] at h; simp at h
      | some c =>
          rw [hf] at h
          by_cases hd : c.isDirectory
          · simp [hd] at h
            have hstep : getNode root (cur ++ [s]) = some c := by
              rw [getNode_append, hget]
              simp [getNode, hf]
            have hvstep : validDirPath root (cur ++ [s]) = true := by
              cases c with
              | dir nm cs => simp [validDirPath, hstep]
              | file nm ct => simp [Node.isDirectory] at hd
            exact ih hstep hvstep h
          · simp [hd] at h

theorem navigateToDirectory_valid {fs : FS} {path : String}
    {start res : List String} (hstart : validDirPath fs.root start = true)
    (h : fs.navigateToDirectory path start = .ok res) :
    validDirPath fs.root res = true := by
  cases hv : validatePath path with
  | error e => simp [FS.navigateToDirectory, hv, exBindErr] at h
  | ok pp =>
      simp only [FS.navigateToDirectory, hv, exBindOk] at h
      set base := if pp.type = .ROOT then [] else dropUps start pp.ups with hbase
      have hvbase : validDirPath fs.root base = true := by
        rw [hbase]
        by_cases ht : pp.type = .ROOT
        · simpa [ht] using validDirPath_of_isPre hstart (isPre_nil start)
        · simpa [ht] using validDirPath_of_isPre hstart (isPre_dropUps start pp.ups)
      cases hg : getNode fs.root base with
      | none => rw [hg] at h; simp at h
      | some n =>
          rw [hg] at h
          exact descendNav_valid hg hvbase h

theorem descendDst_valid {root : Node} {segs : List String} :
    ∀ {n : Node} {cur res : List String},
    getNode root cur = some n →
    validDirPath root cur = true →
    descendDst n cur segs = .ok res →
    validDirPath root res = true := by
  induction segs with
  | nil =>
      intro n cur res _ hv h
      simp [descendDst] at h
      simpa [← h] using hv
  | cons s rest ih =>
      intro n cur res hget hv h
      simp only [descendDst] at h
      cases hf : n.childrenOf.find s with
      | none => rw [hf] at h; simp at h
      | some c =>
          rw [hf] at h
          by_cases hd : c.isDirectory
          · simp [hd] at h
            have hstep : getNode root (cur ++ [s]) = some c := by
              rw [getNode_append, hget]
              simp [getNode, hf]
            have hvstep : validDirPath root (cur ++ [s]) = true := by
              cases c with
              | dir nm cs => simp [validDirPath, hstep]
              | file nm ct => simp [Node.isDirectory] at hd
            exact ih hstep hvstep h
          · simp [hd] at h

theorem resolveDestination_valid {fs : FS} {path : String}
    {res : List String} (hcwd : fs.cwdValid = true)
    (h : fs.resolveDestination path = .ok res) :
    validDirPath fs.root res = true := by
  cases hv : validatePath path with
  | error e => simp [FS.resolveDestination, hv, exBindErr] at h
  | ok pp =>
      simp only [FS.resolveDestination, hv, exBindOk] at h
      set base := if pp.type = .ROOT then [] else dropUps fs.cwd pp.ups with hbase
      have hvbase : validDirPath fs.root base = true := by
        rw [hbase]
        by_cases ht : pp.type = .ROOT
        · simpa [ht] using validDirPath_of_isPre hcwd (isPre_nil fs.cwd)
        · simpa [ht] using validDirPath_of_isPre hcwd (isPre_dropUps fs.cwd pp.ups)
      cases hg : getNode fs.root base with
      | none => rw [hg] at h; simp at h
      | some n =>
          rw [hg] at h
          exact descendDst_valid hg hvbase h

/-- What a successful file-source resolution guarantees: the parent path is
a directory of the tree and the final segment names one of its file
children. -/
theorem resolveParts_file {root : Node} {parts : List String} :
    ∀ {n : Node} {cur pp : List String} {k : String},
    getNode root cur = some n →
    validDirPath root cur = true →
    resolveParts n cur parts = .ok (.fileSrc pp k) →
    validDirPath root pp = true ∧
      ∃ fnm c, getChild root pp k = some (.file fnm c) := by
  induction parts with
  | nil =>
      intro n cur pp k _ _ h
      simp [resolveParts] at h
  | cons s rest ih =>
      intro n cur pp k hget hv h
      simp only [resolveParts] at h
      cases hf : n.childrenOf.find s with
      | none => rw [hf] at h; simp at h
      | some c =>
          rw [hf] at h
          by_cases hd : c.isDirectory
          · simp [hd] at h
            have hstep : getNode root (cur ++ [s]) = some c := by
              rw [getNode_append, hget]
              simp [getNode, hf]
            have hvstep : validDirPath root (cur ++ [s]) = true := by
              cases c with
              | dir nm cs => simp [validDirPath, hstep]
              | file nm ct => simp [Node.isDirectory] at hd
            exact ih hstep hvstep h
          · by_cases hrest : rest = []
            · simp [hd, hrest] at h
              obtain ⟨hcur, hk⟩ := h
              subst hcur; subst hk
              refine ⟨hv, ?_⟩
              cases c with
              | dir nm cs => simp [Node.isDirectory] at hd
              | file nm ct => exact ⟨nm, ct, by simp [getChild, hget, hf]⟩
            · simp [hd, hrest] at h

/-- What a successful directory-source resolution guarantees. -/
theorem resolveParts_dir {root : Node} {parts : List String} :
    ∀ {n : Node} {cur res : List String},
    getNode root cur = some n →
    validDirPath root cur = true →
    resolveParts n cur parts = .ok (.dirSrc res) →
    validDirPath root res = true := by
  induction parts with
  | nil =>
      intro n cur res _ hv h
      simp [resolveParts] at h
      simpa [← h] using hv
  | cons s rest ih =>
      intro n cur res hget hv h
      simp only [resolveParts] at h
      cases hf : n.childrenOf.find s with
      | none => rw [hf] at h; simp at h
      | some c =>
          rw [hf] at h
          by_cases hd : c.isDirectory
          · simp [hd] at h
            have hstep : getNode root (cur ++ [s]) = some c := by
              rw [getNode_append, hget]
              simp [getNode, hf]
            have hvstep : validDirPath root (cur ++ [s]) = true := by
              cases c with
              | dir nm cs => simp [validDirPath, hstep]
              | file nm ct => simp [Node.isDirectory] at hd
            exact ih hstep hvstep h
          · by_cases hrest : rest = [] <;> simp [hd, hrest] at h

theorem resolveSource_file {fs : FS} {path : String} {r : Bool}
    {pp : List String} {k : String} (hcwd : fs.cwdValid = true)
    (h : fs.resolveSource path r = .ok (.fileSrc pp k)) :
    validDirPath fs.root pp = true ∧
      ∃ fnm c, getChild fs.root pp k = some (.file fnm c) := by
  cases hv : validatePath path with
  | error e => simp [FS.resolveSource, hv, exBindErr] at h
  | ok ppre =>
      simp only [FS.resolveSource, hv, exBindOk] at h
      set base := if ppre.type = .ROOT then [] else dropUps fs.cwd ppre.ups with hbase
      have hvbase : validDirPath fs.root base = true := by
        rw [hbase]
        by_cases ht : ppre.type = .ROOT
        · simpa [ht] using validDirPath_of_isPre hcwd (isPre_nil fs.cwd)
        · simpa [ht] using validDirPath_of_isPre hcwd (isPre_dropUps fs.cwd ppre.ups)
      cases hg : getNode fs.root base with
      | none => simp [hg, exBindErr] at h
      | some n =>
          simp only [hg] at h
          cases hr : resolveParts n base (splitSegs ppre.rest) with
          | error e => simp [hr, exBindErr] at h
          | ok src =>
              simp only [hr, exBindOk] at h
              cases src with
              | fileSrc pp' k' =>
                  cases r with
                  | true => simp at h
                  | false =>
                      simp at h
                      obtain ⟨hpp, hk⟩ := h
                      subst hpp; subst hk
                      exact resolveParts_file hg hvbase hr
              | dirSrc q =>
                  cases r with
                  | true => simp at h
                  | false => simp at h

theorem resolveSource_dir {fs : FS} {path : String} {r : Bool}
    {sp : List String} (hcwd : fs.cwdValid = true)
    (h : fs.resolveSource path r = .ok (.dirSrc sp)) :
    validDirPath fs.root sp = true := by
  cases hv : validatePath path with
  | error e => simp [FS.resolveSource, hv, exBindErr] at h
  | ok ppre =>
      simp only [FS.resolveSource, hv, exBindOk] at h
      set base := if ppre.type = .ROOT then [] else dropUps fs.cwd ppre.ups with hbase
      have hvbase : validDirPath fs.root base = true := by
        rw [hbase]
        by_cases ht : ppre.type = .ROOT
        · simpa [ht] using validDirPath_of_isPre hcwd (isPre_nil fs.cwd)
        · simpa [ht] using validDirPath_of_isPre hcwd (isPre_dropUps fs.cwd ppre.ups)
      cases hg : getNode fs.root base with
      | none => simp [hg, exBindErr] at h
      | some n =>
          simp only [hg] at h
          cases hr : resolveParts n base (splitSegs ppre.rest) with
          | error e => simp [hr, exBindErr] at h
          | ok src =>
              simp only [hr, exBindOk] at h
              cases src with
              | fileSrc pp' k' =>
                  cases r with
                  | true => simp at h
                  | false => simp at h
              | dirSrc q =>
                  cases r with
                  | true =>
                      simp at h
                      subst h
                      exact resolveParts_dir hg hvbase hr
                  | false => simp at h

end MiniShell

namespace MiniShell

/-! ## Preservation of valid directory paths under tree surgery -/

/-- Master preservation lemma: replacing the children of the directory at
`pp` keeps any valid directory path `q` valid, provided the lookup results
that `q` actually uses are unchanged — i.e. when `q` continues below `pp`,
its first key below `pp` maps to the same child as before. -/
theorem replaceAt_valid_outside {root : Node} {pp : List String} {pn : String}
    {pcs cs' : Entries} (hpp : getNode root pp = some (.dir pn pcs))
    {q : List String} (hq : validDirPath root q = true)
    (hkeys : ∀ t rest', q = pp ++ t :: rest' → cs'.find t = pcs.find t) :
    validDirPath (replaceAt root pp cs') q = true := by
  by_cases h1 : isPre pp q = true
  · by_cases h2 : isPre q pp = true
    · have hpq : pp = q := isPre_antisymm h1 h2
      subst hpq
      simp [validDirPath, getNode_replaceAt_self hpp cs']
    · obtain ⟨r, rfl⟩ := isPre_iff_exists.mp h1
      cases r with
      | nil => exact absurd (by simpa using isPre_refl pp) h2
      | cons t rest' =>
          have heq := hkeys t rest' rfl
          have hafter := getNode_replaceAt_append hpp cs' (t :: rest')
          have horig : getNode root (pp ++ t :: rest')
              = getNode (Node.dir pn pcs) (t :: rest') := by
            rw [getNode_append, hpp]; rfl
          have hsame : getNode (Node.dir pn cs') (t :: rest')
              = getNode (Node.dir pn pcs) (t :: rest') := by
            simp only [getNode, Node.childrenOf, heq]
          unfold validDirPath at hq ⊢
          rw [hafter, hsame, ← horig]
          exact hq
  · by_cases h2 : isPre q pp = true
    · exact validDirPath_replaceAt_of_strict hpp cs' h2 hq
    · have hdiv := getNode_replaceAt_divergent hpp cs'
        (Bool.not_eq_true _ ▸ h1 : isPre pp q = false)
        (Bool.not_eq_true _ ▸ h2 : isPre q pp = false)
      simpa [validDirPath, hdiv] using hq

/-- A successful `modifyCwd` keeps the cwd where it was and keeps it a valid
directory. -/
theorem modifyCwd_valid {fs : FS} {f : Entries → Except Err Entries} {fs' : FS}
    (hcwd : fs.cwdValid = true) (h : fs.modifyCwd f = .ok fs') :
    fs'.cwdValid = true ∧ fs'.cwd = fs.cwd := by
  obtain ⟨nm, cs, hget⟩ := validDirPath_iff.mp hcwd
  cases hf : f cs with
  | error e =>
      have := updateAt_err hget hf
      simp [FS.modifyCwd, this, exBindErr] at h
  | ok cs' =>
      have := updateAt_ok hget hf
      simp only [FS.modifyCwd, this, exBindOk] at h
      cases h
      refine ⟨?_, rfl⟩
      simp [FS.cwdValid, validDirPath, getNode_replaceAt_self hget cs']

/-- Operation `cd` preserves the invariant: the new cwd is whatever the navigation
reached, and navigation only reaches directories of the tree. -/
theorem cd_valid {fs fs' : FS} {path : String} (hcwd : fs.cwdValid = true)
    (h : fs.cd path = .ok fs') : fs'.cwdValid = true := by
  cases hn : fs.navigateToDirectory path fs.cwd with
  | error e => simp [FS.cd, hn, exBindErr] at h
  | ok p =>
      simp only [FS.cd, hn, exBindOk] at h
      have := navigateToDirectory_valid hcwd hn
      cases h
      simpa [FS.cwdValid] using this

end MiniShell

namespace MiniShell

/-! ## Safety side conditions for copy and move

`cp`/`mv` insert into the destination map with `operator[]`, which silently
replaces an existing entry.  Replacing a directory entry by a file can
detach the subtree holding the cwd, so the preservation results below take
the side condition that no existing *directory* child is overwritten.  For a
directory move the side condition additionally records that the moved
node's stored name agrees with its key in the parent map — true in every
state the manager can reach, since each insertion keys a node by its stored
name. -/

def FS.cpSafe (fs : FS) (src dst : String) (r : Bool) : Bool :=
  match fs.resolveSource src r, fs.resolveDestination dst with
  | .ok (.fileSrc pp k), .ok dp =>
      match getChild fs.root pp k with
      | some (.file fnm _) =>
          match getChild fs.root dp fnm with
          | some (.dir ..) => false
          | _ => true
      | _ => true
  | _, _ => true

def FS.mvSafe (fs : FS) (src dst : String) (r : Bool) : Bool :=
  match fs.resolveSource src r, fs.resolveDestination dst with
  | .ok (.fileSrc _ k), .ok dp =>
      (match getChild fs.root dp k with
       | some (.dir ..) => false
       | _ => true)
  | .ok (.dirSrc sp), .ok _ =>
      (match sp.getLast? with
       | none => true
       | some k =>
           match getChild fs.root sp.dropLast k with
           | some n => n.getName = k
           | none => true)
  | _, _ => true

def opSafe (fs : FS) : Op → Bool
  | .cp s d r => fs.cpSafe s d r
  | .mv s d r => fs.mvSafe s d r
  | _ => true

/-! ## Preservation helpers for `cp` and `mv` -/

/-- A valid directory path passing below `dp` through key `t` proves that
`t` maps to a directory child there. -/
theorem validDirPath_child_dir {root : Node} {dp : List String} {dn : String}
    {dcs : Entries} {t : String} {rest' : List String}
    (hdg : getNode root dp = some (.dir dn dcs))
    (hv : validDirPath root (dp ++ t :: rest') = true) :
    ∃ cn ccs, dcs.find t = some (.dir cn ccs) := by
  obtain ⟨nm, cs, hget⟩ := validDirPath_iff.mp hv
  rw [getNode_append, hdg] at hget
  simp only [Option.some_bind] at hget
  simp only [getNode, Node.childrenOf] at hget
  cases hf : dcs.find t with
  | none => rw [hf] at hget; simp at hget
  | some c =>
      rw [hf] at hget
      cases c with
      | dir cn ccs => exact ⟨cn, ccs, rfl⟩
      | file fn fc =>
          cases rest' with
          | nil => simp [getNode] at hget
          | cons x xs => simp [getNode, Node.childrenOf, Entries.find] at hget

/-- Setting a key that does not currently hold a directory child preserves
every valid directory path. -/
theorem set_preserves_valid {root : Node} {dp : List String} {dn : String}
    {dcs : Entries} (hdg : getNode root dp = some (.dir dn dcs))
    {q : List String} (hq : validDirPath root q = true) {k : String} {v : Node}
    (hnotdir : ∀ cn ccs, dcs.find k = some (.dir cn ccs) → False) :
    validDirPath (replaceAt root dp (dcs.set k v)) q = true := by
  refine replaceAt_valid_outside hdg hq ?_
  intro t rest' heq
  by_cases hk : k = t
  · subst hk
    rw [heq] at hq
    obtain ⟨cn, ccs, hfind⟩ := validDirPath_child_dir hdg hq
    exact absurd hfind (fun hfind => hnotdir cn ccs hfind)
  · exact Entries.find_set_other dcs v hk

/-- Erasing a key that holds a file child preserves every valid directory
path. -/
theorem erase_preserves_valid {root : Node} {pp : List String} {pn : String}
    {pcs : Entries} (hpg : getNode root pp = some (.dir pn pcs))
    {q : List String} (hq : validDirPath root q = true) {k : String}
    (hnotdir : ∀ cn ccs, pcs.find k = some (.dir cn ccs) → False) :
    validDirPath (replaceAt root pp (pcs.erase k)) q = true := by
  refine replaceAt_valid_outside hpg hq ?_
  intro t rest' heq
  by_cases hk : k = t
  · subst hk
    rw [heq] at hq
    obtain ⟨cn, ccs, hfind⟩ := validDirPath_child_dir hpg hq
    exact absurd hfind (fun hfind => hnotdir cn ccs hfind)
  · exact Entries.find_erase_other pcs hk

/-- The facts a successful `validateCopyOrMove` provides. -/
theorem validateCopyOrMove_ok {fs : FS} {sp dp : List String}
    (h : fs.validateCopyOrMove sp dp = .ok ()) :
    sp ≠ dp ∧ sp ≠ [] ∧ isPre sp dp = false ∧
      (∀ srcN dstN, getNode fs.root sp = some srcN →
        getNode fs.root dp = some dstN →
        dstN.childrenOf.hasKey srcN.getName = false) := by
  by_cases h1 : sp = dp
  · simp [FS.validateCopyOrMove, h1] at h
  · by_cases h2 : sp = []
    · subst h2
      by_cases hdp : ([] : List String) = dp
      · exact absurd hdp h1
      · simp [FS.validateCopyOrMove, hdp] at h
    · by_cases h3 : isPre sp dp = true
      · simp [FS.validateCopyOrMove, h1, h2, h3] at h
      · refine ⟨h1, h2, by simpa using h3, ?_⟩
        intro srcN dstN hs hd
        simp only [FS.validateCopyOrMove, h1, h2, if_false, h3, hs, hd] at h
        by_cases h4 : dstN.childrenOf.hasKey srcN.getName = true
        · simp [h4] at h
        · simpa using h4

end MiniShell

namespace MiniShell

/-- A successful, safe `cp` keeps the cwd a valid directory path (its `cwd`
field is untouched by `cp`). -/
theorem cp_valid {fs fs' : FS} {src dst : String} {r : Bool}
    (hcwd : fs.cwdValid = true) (hsafe : fs.cpSafe src dst r = true)
    (h : fs.cp src dst r = .ok fs') : fs'.cwdValid = true := by
  cases hs : fs.resolveSource src r with
  | error e => simp [FS.cp, hs, exBindErr] at h
  | ok src₀ =>
      cases hd : fs.resolveDestination dst with
      | error e => simp [FS.cp, hs, hd, exBindOk, exBindErr] at h
      | ok dp =>
          have hvdp := resolveDestination_valid hcwd hd
          obtain ⟨dn, dcs, hdg⟩ := validDirPath_iff.mp hvdp
          cases src₀ with
          | fileSrc pp k =>
              obtain ⟨hvpp, fnm, fc, hfile⟩ := resolveSource_file hcwd hs
              simp only [FS.cp, hs, hd, exBindOk, hfile] at h
              have hupd : updateAt fs.root dp
                  (fun cs => .ok (cs.set fnm (.file fnm fc)))
                  = .ok (replaceAt fs.root dp (dcs.set fnm (.file fnm fc))) :=
                updateAt_ok hdg rfl
              simp only [hupd, exBindOk] at h
              cases h
              simp only [FS.cwdValid]
              refine set_preserves_valid hdg hcwd ?_
              intro cn ccs hfind
              obtain ⟨pn, pcs, hpg⟩ := validDirPath_iff.mp hvpp
              have hpk : pcs.find k = some (.file fnm fc) := by
                simpa [getChild, hpg, Node.childrenOf] using hfile
              simp [FS.cpSafe, hs, hd, getChild, hpg, Node.childrenOf, hpk,
                    hdg, hfind] at hsafe
          | dirSrc sp =>
              have hvsp := resolveSource_dir hcwd hs
              obtain ⟨sn, scs, hsg⟩ := validDirPath_iff.mp hvsp
              simp only [FS.cp, hs, hd, exBindOk] at h
              cases hval : fs.validateCopyOrMove sp dp with
              | error e => simp [hval, exBindErr] at h
              | ok u =>
                  cases u
                  obtain ⟨_, _, _, hnokey⟩ := validateCopyOrMove_ok hval
                  have hkey := hnokey _ _ hsg hdg
                  simp only [hval, exBindOk, hsg] at h
                  have hupd : updateAt fs.root dp
                      (fun cs => .ok (cs.set (Node.dir sn scs).getName
                        (deepCopy (.dir sn scs))))
                      = .ok (replaceAt fs.root dp
                        (dcs.set (Node.dir sn scs).getName
                          (deepCopy (.dir sn scs)))) :=
                    updateAt_ok hdg rfl
                  simp only [hupd, exBindOk] at h
                  cases h
                  simp only [FS.cwdValid]
                  refine set_preserves_valid hdg hcwd ?_
                  intro cn ccs hfind
                  simp only [Node.getName] at hfind hkey
                  simp [Node.childrenOf, Entries.hasKey, hfind] at hkey

end MiniShell

namespace MiniShell

/-- Fact that `isPre (L ++ [b]) q` holds whenever `q` continues below `L` through the
key `b`. -/
theorem isPre_concat_cons (L : List String) (b : String) (rest' : List String) :
    isPre (L ++ [b]) (L ++ b :: rest') = true := by
  refine isPre_iff_exists.mpr ⟨rest', ?_⟩
  simp

/-- A successful, safe `mv` keeps the cwd a valid directory path; for a
directory move the cwd pointer follows the relocated subtree. -/
theorem mv_valid {fs fs' : FS} {src dst : String} {r : Bool}
    (hcwd : fs.cwdValid = true) (hsafe : fs.mvSafe src dst r = true)
    (h : fs.mv src dst r = .ok fs') : fs'.cwdValid = true := by
  cases hs : fs.resolveSource src r with
  | error e => simp [FS.mv, hs, exBindErr] at h
  | ok src₀ =>
      cases hd : fs.resolveDestination dst with
      | error e => simp [FS.mv, hs, hd, exBindOk, exBindErr] at h
      | ok dp =>
          have hvdp := resolveDestination_valid hcwd hd
          obtain ⟨dn, dcs, hdg⟩ := validDirPath_iff.mp hvdp
          cases src₀ with
          | fileSrc pp k =>
              obtain ⟨hvpp, fnm, fc, hfile⟩ := resolveSource_file hcwd hs
              obtain ⟨pn, pcs, hpg⟩ := validDirPath_iff.mp hvpp
              have hpk : pcs.find k = some (.file fnm fc) := by
                simpa [getChild, hpg, Node.childrenOf] using hfile
              simp only [FS.mv, hs, hd, exBindOk, hfile] at h
              have hupd1 : updateAt fs.root pp (fun cs => .ok (cs.erase k))
                  = .ok (replaceAt fs.root pp (pcs.erase k)) :=
                updateAt_ok hpg rfl
              simp only [hupd1, exBindOk] at h
              have hnodirk : ∀ cn ccs, pcs.find k = some (.dir cn ccs) → False := by
                intro cn ccs hx
                rw [hpk] at hx
                cases hx
              have hv1 : validDirPath (replaceAt fs.root pp (pcs.erase k))
                  fs.cwd = true := erase_preserves_valid hpg hcwd hnodirk
              have hvdp1 : validDirPath (replaceAt fs.root pp (pcs.erase k))
                  dp = true := erase_preserves_valid hpg hvdp hnodirk
              obtain ⟨dn1, dcs1, hdg1⟩ := validDirPath_iff.mp hvdp1
              have hupd2 : updateAt (replaceAt fs.root pp (pcs.erase k)) dp
                  (fun cs => .ok (cs.set k (.file fnm fc)))
                  = .ok (replaceAt (replaceAt fs.root pp (pcs.erase k)) dp
                      (dcs1.set k (.file fnm fc))) :=
                updateAt_ok hdg1 rfl
              simp only [hupd2, exBindOk] at h
              cases h
              simp only [FS.cwdValid]
              refine replaceAt_valid_outside hdg1 hv1 ?_
              intro t rest' heq
              by_cases hk : k = t
              · subst hk
                have hcwd2 : validDirPath fs.root (dp ++ k :: rest') = true := by
                  rw [← heq]; exact hcwd
                obtain ⟨cn, ccs, hfind⟩ := validDirPath_child_dir hdg hcwd2
                have : getChild fs.root dp k = some (.dir cn ccs) := by
                  simp [getChild, hdg, Node.childrenOf, hfind]
                simp [FS.mvSafe, hs, hd, this] at hsafe
              · exact Entries.find_set_other dcs1 _ hk
          | dirSrc sp =>
              have hvsp := resolveSource_dir hcwd hs
              obtain ⟨sn, scs, hsg⟩ := validDirPath_iff.mp hvsp
              simp only [FS.mv, hs, hd, exBindOk] at h
              cases hval : fs.validateCopyOrMove sp dp with
              | error e => simp [hval, exBindErr] at h
              | ok u =>
                  cases u
                  obtain ⟨hne, hnnil, hnpre, hnokey⟩ := validateCopyOrMove_ok hval
                  have hkey : dcs.hasKey sn = false := by
                    simpa [Node.childrenOf, Node.getName] using hnokey _ _ hsg hdg
                  rcases List.eq_nil_or_concat sp with rfl | ⟨L, b, hsp⟩
                  · exact absurd rfl hnnil
                  rw [List.concat_eq_append] at hsp
                  subst hsp
                  have hvL : validDirPath fs.root L = true := by
                    have := validDirPath_of_isPre hvsp (isPre_dropLast (L ++ [b]))
                    simpa [List.dropLast_concat] using this
                  obtain ⟨pn, pcs, hpg⟩ := validDirPath_iff.mp hvL
                  have hfb : pcs.find b = some (.dir sn scs) := by
                    have hsg2 : getNode (Node.dir pn pcs) [b]
                        = some (.dir sn scs) := by
                      rw [← hsg, getNode_append, hpg]
                      rfl
                    cases hx : pcs.find b with
                    | none => simp [getNode, Node.childrenOf, hx] at hsg2
                    | some c =>
                        simp only [getNode, Node.childrenOf, hx] at hsg2
                        exact hsg2
                  have hgc : getChild fs.root L b = some (.dir sn scs) := by
                    simp [getChild, hpg, Node.childrenOf, hfb]
                  have hbn : sn = b := by
                    simpa [FS.mvSafe, hs, hd, List.getLast?_concat, hgc,
                           Node.getName] using hsafe
                  subst hbn
                  simp only [hval, exBindOk, hsg, Node.getName,
                             List.dropLast_concat] at h
                  have hupd1 : updateAt fs.root L (fun cs => .ok (cs.erase sn))
                      = .ok (replaceAt fs.root L (pcs.erase sn)) :=
                    updateAt_ok hpg rfl
                  simp only [hupd1, exBindOk] at h
                  have hkeysL : ∀ (q : List String), validDirPath fs.root q = true →
                      isPre (L ++ [sn]) q = false →
                      validDirPath (replaceAt fs.root L (pcs.erase sn)) q = true := by
                    intro q hq hqpre
                    refine replaceAt_valid_outside hpg hq ?_
                    intro t rest' heq
                    by_cases ht : sn = t
                    · subst ht
                      rw [heq] at hqpre
                      rw [isPre_concat_cons] at hqpre
                      cases hqpre
                    · exact Entries.find_erase_other pcs ht
                  have hvdp1 : validDirPath (replaceAt fs.root L (pcs.erase sn))
                      dp = true := hkeysL dp hvdp hnpre
                  obtain ⟨dn1, dcs1, hdg1⟩ := validDirPath_iff.mp hvdp1
                  have hupd2 : updateAt (replaceAt fs.root L (pcs.erase sn)) dp
                      (fun cs => .ok (cs.set sn (.dir sn scs)))
                      = .ok (replaceAt (replaceAt fs.root L (pcs.erase sn)) dp
                          (dcs1.set sn (.dir sn scs))) :=
                    updateAt_ok hdg1 rfl
                  simp only [hupd2, exBindOk] at h
                  cases h
                  simp only [FS.cwdValid]
                  by_cases hpre : isPre (L ++ [sn]) fs.cwd = true
                  · -- the cwd lies inside the moved subtree; its pointer
                    -- follows the move
                    obtain ⟨suffix, hsuf⟩ := isPre_iff_exists.mp hpre
                    have hlen : (L ++ [sn]).length - 1 = L.length := by simp
                    have hdrop : fs.cwd.drop ((L ++ [sn]).length - 1)
                        = sn :: suffix := by
                      rw [hlen, hsuf, List.append_assoc, List.singleton_append,
                          List.drop_left]
                    simp only [hpre, if_true, hdrop]
                    have hafter := getNode_replaceAt_append hdg1
                      (dcs1.set sn (.dir sn scs)) (sn :: suffix)
                    have horig : getNode fs.root fs.cwd
                        = getNode (Node.dir sn scs) suffix := by
                      rw [hsuf, getNode_append, hsg]
                      rfl
                    unfold validDirPath
                    rw [hafter]
                    simp only [getNode, Node.childrenOf, Entries.find_set_self]
                    unfold FS.cwdValid validDirPath at hcwd
                    rw [horig] at hcwd
                    exact hcwd
                  · -- the cwd is outside the moved subtree and keeps its path
                    simp only [hpre, if_false]
                    have hv1 : validDirPath (replaceAt fs.root L (pcs.erase sn))
                        fs.cwd = true := hkeysL fs.cwd hcwd (by simpa using hpre)
                    refine replaceAt_valid_outside hdg1 hv1 ?_
                    intro t rest' heq
                    by_cases ht : sn = t
                    · subst ht
                      have hcwd2 : validDirPath fs.root (dp ++ sn :: rest')
                          = true := by rw [← heq]; exact hcwd
                      obtain ⟨cn, ccs, hfind⟩ := validDirPath_child_dir hdg hcwd2
                      simp [Entries.hasKey, hfind] at hkey
                    · exact Entries.find_set_other dcs1 _ ht

end MiniShell

namespace MiniShell

/-! ## Content and name observers used by the claims -/

/-- The file contents of a children map are free of the NUL character.
(C++ `std::string` guarantees `s[s.size()] == '\0'`, so for an empty pattern
the KMP scanner compares every text character against NUL.) -/
def Entries.noNul : Entries → Bool
  | .nil => true
  | .cons _ (.file _ c) rest =>
      c.data.all (fun ch => ch ≠ Char.ofNat 0) && Entries.noNul rest
  | .cons _ (.dir _ kcs) rest => Entries.noNul kcs && Entries.noNul rest

/-- Predicate `Entries.noNul` on a node's subtree. -/
def Node.noNul : Node → Bool
  | .file _ c => c.data.all (fun ch => ch ≠ Char.ofNat 0)
  | .dir _ cs => Entries.noNul cs

theorem Entries.noNul_find : ∀ {cs : Entries} {k : String} {v : Node},
    cs.noNul = true → cs.find k = some v → v.noNul = true := by
  intro cs
  induction cs using Entries.noNul.induct with
  | case1 => intro k v _ h; simp [Entries.find] at h
  | case2 k' fnm fc rest ih =>
      intro k v hn h
      simp [Entries.noNul] at hn
      simp only [Entries.find] at h
      by_cases hk : k' = k
      · simp [hk] at h
        simpa [← h, Node.noNul] using hn.1
      · simp [hk] at h
        exact ih hn.2 h
  | case3 k' knm kcs rest ih1 ih2 =>
      intro k v hn h
      simp [Entries.noNul] at hn
      simp only [Entries.find] at h
      by_cases hk : k' = k
      · simp [hk] at h
        simpa [← h, Node.noNul] using hn.1
      · simp [hk] at h
        exact ih2 hn.2 h

theorem getNode_noNul : ∀ {root : Node} (p : List String) {n : Node},
    root.noNul = true → getNode root p = some n → n.noNul = true := by
  intro root p
  induction p generalizing root with
  | nil => intro n hn h; simp [getNode] at h; simpa [← h] using hn
  | cons s rest ih =>
      intro n hn h
      simp only [getNode] at h
      cases hf : root.childrenOf.find s with
      | none => rw [hf] at h; simp at h
      | some c =>
          rw [hf] at h
          have hc : c.noNul = true := by
            cases root with
            | dir nm cs =>
                exact Entries.noNul_find (by simpa [Node.noNul] using hn)
                  (by simpa [Node.childrenOf] using hf)
            | file nm ct => simp [Node.childrenOf, Entries.find] at hf
          exact ih hc h

/-- All directories of a subtree carry names that `Directory::mkdir` would
accept.  Every tree the manager can build satisfies this: directories are
created only by `mkdir` (which validates) or by copying/moving existing
directories; in particular no directory is ever named `"."` or `".."`. -/
def Entries.dirKeysOk : Entries → Bool
  | .nil => true
  | .cons k (.dir _ kcs) rest =>
      !(badName k) && Entries.dirKeysOk kcs && Entries.dirKeysOk rest
  | .cons _ (.file _ _) rest => Entries.dirKeysOk rest

def Node.dirKeysOk : Node → Bool
  | .dir _ cs => cs.dirKeysOk
  | .file .. => true

theorem Entries.dirKeysOk_find : ∀ {cs : Entries} {k : String} {v : Node},
    cs.dirKeysOk = true → cs.find k = some v →
    v.dirKeysOk = true ∧ (badName k = true → v.isDirectory = false) := by
  intro cs
  induction cs using Entries.dirKeysOk.induct with
  | case1 => intro k v _ h; simp [Entries.find] at h
  | case2 k' knm kcs rest ih1 ih2 =>
      intro k v hn h
      simp [Entries.dirKeysOk] at hn
      simp only [Entries.find] at h
      by_cases hk : k' = k
      · simp [hk] at h
        subst hk
        refine ⟨by simpa [← h, Node.dirKeysOk] using hn.1.2, ?_⟩
        intro hbad
        exact absurd hbad (by simpa using hn.1.1)
      · simp [hk] at h
        exact ih2 hn.2 h
  | case3 k' fnm fc rest ih =>
      intro k v hn h
      simp [Entries.dirKeysOk] at hn
      simp only [Entries.find] at h
      by_cases hk : k' = k
      · simp [hk] at h
        exact ⟨by simp [← h, Node.dirKeysOk],
               by intro _; simp [← h, Node.isDirectory]⟩
      · simp [hk] at h
        exact ih hn h

theorem getNode_dirKeysOk : ∀ {root : Node} (p : List String) {n : Node},
    root.dirKeysOk = true → getNode root p = some n → n.dirKeysOk = true := by
  intro root p
  induction p generalizing root with
  | nil => intro n hn h; simp [getNode] at h; simpa [← h] using hn
  | cons s rest ih =>
      intro n hn h
      simp only [getNode] at h
      cases hf : root.childrenOf.find s with
      | none => rw [hf] at h; simp at h
      | some c =>
          rw [hf] at h
          have hc : c.dirKeysOk = true := by
            cases root with
            | dir nm cs =>
                exact (Entries.dirKeysOk_find
                  (by simpa [Node.dirKeysOk] using hn)
                  (by simpa [Node.childrenOf] using hf)).1
            | file nm ct => simp [Node.childrenOf, Entries.find] at hf
          exact ih hc h

end MiniShell

namespace MiniShell

/-! ## The empty search pattern matches nothing (NUL-free texts)

With an empty pattern the C++ scanner compares each text character against
`pattern[0]`, which `std::string` defines to be the NUL character; on NUL-free
text every comparison fails with `j == 0`, so the loop just walks off the end
of the text and returns `false`. -/

theorem kmpLoop_empty (t : List Char) (lps : List Nat)
    (hnul : t.all (fun c => c ≠ Char.ofNat 0) = true) :
    ∀ (fuel i : Nat), kmpLoop t [] lps fuel i 0 = false := by
  intro fuel
  induction fuel with
  | zero => intro i; rfl
  | succ fuel ih =>
      intro i
      by_cases hi : i < t.length
      · have hmem : t.getD i (Char.ofNat 0) ∈ t := by
          rw [List.getD_eq_getElem t (Char.ofNat 0) hi]
          exact List.getElem_mem hi
        have hne : ¬ (sget t i = sget ([] : List Char) 0) := by
          have := List.all_eq_true.mp hnul _ hmem
          simpa [sget] using this
        simp [kmpLoop, hi, hne, ih (i + 1)]
      · simp [kmpLoop, hi]

theorem kmpSolve_empty (text : String)
    (h : text.data.all (fun c => c ≠ Char.ofNat 0) = true) :
    kmpSolve text "" = false := by
  exact kmpLoop_empty text.data _ h _ 0

theorem grepChildren_empty : ∀ (cs : Entries), cs.noNul = true →
    grepChildren cs "" = []
  | .nil, _ => rfl
  | .cons k (.file fnm fc) rest, h => by
      simp only [Entries.noNul, Bool.and_eq_true] at h
      simp [grepChildren, kmpSolve_empty fc h.1, grepChildren_empty rest h.2]
  | .cons k (.dir dnm dcs) rest, h => by
      simp only [Entries.noNul, Bool.and_eq_true] at h
      simp [grepChildren, grepChildren_empty rest h.2]

theorem dfsEntries_empty : ∀ (cs : Entries) (path : List String),
    cs.noNul = true → dfsEntries cs "" path = []
  | .nil, _, _ => rfl
  | .cons k (.file fnm fc) rest, path, h => by
      simp only [Entries.noNul, Bool.and_eq_true] at h
      simp [dfsEntries, kmpSolve_empty fc h.1, dfsEntries_empty rest path h.2]
  | .cons k (.dir dnm dcs) rest, path, h => by
      simp only [Entries.noNul, Bool.and_eq_true] at h
      simp [dfsEntries, dfsAndGrep, dfsEntries_empty dcs (path ++ [dnm]) h.1,
            dfsEntries_empty rest path h.2]

end MiniShell

namespace MiniShell

/-! ## Claim C1 — path normalization -/

/-- Descending through a literal `"."` segment always fails on a tree whose
directories have `mkdir`-acceptable names. -/
theorem descendNav_dot {n : Node} (hok : n.dirKeysOk = true)
    (cur rest' : List String) :
    (descendNav n cur ("." :: rest')).isOk = false := by
  simp only [descendNav]
  cases n with
  | file nm c => simp [Node.childrenOf, Entries.find, Except.isOk, Except.toBool]
  | dir nm cs =>
      cases hf : Entries.find cs "." with
      | none => simp [Node.childrenOf, hf, Except.isOk, Except.toBool]
      | some d =>
          have hd : d.isDirectory = false :=
            (Entries.dirKeysOk_find (by simpa [Node.dirKeysOk] using hok) hf).2
              (by decide)
          simp [Node.childrenOf, hf, hd, Except.isOk, Except.toBool]

/-- Example tree `/a/{b,c}` used for C1. -/
def fsC1 : FS :=
  ⟨.dir ""
    (.cons "a" (.dir "a"
      (.cons "b" (.dir "b" .nil) (.cons "c" (.dir "c" .nil) .nil))) .nil), []⟩

/-- Claim C1, as stated, is false at a concrete tree: with directories
`/a/b` and `/a/c`, resolving `"/a/./b/../c"` fails (`"."` is looked up as a
literal child name and does not exist) while resolving `"/a/c"` succeeds, so
the two are not equivalent. -/
theorem C1_counterexample :
    fsC1.navigateToDirectory "/a/./b/../c" [] ≠ fsC1.navigateToDirectory "/a/c" []
      ∧ fsC1.navigateToDirectory "/a/c" [] = .ok ["a", "c"]
      ∧ fsC1.navigateToDirectory "/a/./b/../c" [] = .error (.dirDoesNotExist ".") := by
  refine ⟨?_, by decide, by decide⟩
  decide

/-- Claim C1 (amended): `.` and `..` are normalized only in the leading
token prefix of a path — e.g. resolving `"/./a/c"` is equivalent to
resolving `"/a/c"` from every start — but `.`/`..` appearing after the first
ordinary segment are treated as literal child names, so on every tree whose
directory names pass `mkdir`'s validation (as all manager-built trees do),
resolving `"/a/./b/../c"` fails rather than resolving like `"/a/c"`. -/
theorem C1_theorem :
    (∀ (fs : FS) (start : List String),
      fs.navigateToDirectory "/./a/c" start = fs.navigateToDirectory "/a/c" start)
    ∧ (∀ (fs : FS) (start : List String), fs.root.dirKeysOk = true →
      (fs.navigateToDirectory "/a/./b/../c" start).isOk = false) := by
  constructor
  · intro fs start
    rfl
  · intro fs start hok
    have hred : fs.navigateToDirectory "/a/./b/../c" start
        = descendNav fs.root [] ["a", ".", "b", "..", "c"] := rfl
    rw [hred]
    cases hrt : fs.root with
    | file nm c =>
        simp [descendNav, Node.childrenOf, Entries.find, Except.isOk,
              Except.toBool]
    | dir nm cs =>
        rw [hrt] at hok
        simp only [descendNav]
        cases hf : Entries.find cs "a" with
        | none => simp [Node.childrenOf, hf, Except.isOk, Except.toBool]
        | some c =>
            by_cases hd : c.isDirectory
            · have hcok : c.dirKeysOk = true :=
                (Entries.dirKeysOk_find (by simpa [Node.dirKeysOk] using hok) hf).1
              simp only [Node.childrenOf, hf, hd, if_true]
              exact descendNav_dot hcok ["a"] ["b", "..", "c"]
            · simp [Node.childrenOf, hf, hd, Except.isOk, Except.toBool]

/-- Witness: the amended statement applied to the concrete tree of the
counterexample. -/
theorem C1_witness :
    fsC1.root.dirKeysOk = true
      ∧ (fsC1.navigateToDirectory "/a/./b/../c" []).isOk = false :=
  ⟨by decide, C1_theorem.2 fsC1 [] (by decide)⟩

end MiniShell

namespace MiniShell

/-! ## Claim C2 — name conflicts at a copy/move destination -/

/-- Tree with file `/f` (content `"src"`) and directory `/d` already holding
a file `f` (content `"old"`). -/
def fsC2 : FS :=
  ⟨.dir "" (.cons "f" (.file "f" "src")
    (.cons "d" (.dir "d" (.cons "f" (.file "f" "old") .nil)) .nil)), []⟩

/-- Claim C2, as stated, is false: copying (or moving) file `/f` into `/d`,
whose child `f` already exists, is not rejected — it succeeds and the
existing child is silently replaced by the source's content. -/
theorem C2_counterexample :
    Except.map (fun fs' => getChild fs'.root ["d"] "f") (fsC2.cp "f" "/d" false)
      = .ok (some (.file "f" "src"))
    ∧ Except.map
        (fun fs' => (getChild fs'.root [] "f", getChild fs'.root ["d"] "f"))
        (fsC2.mv "f" "/d" false)
      = .ok (none, some (.file "f" "src")) := by
  constructor <;> decide

/-- Claim C2 (amended): for a file source, `cp` and `mv` insert into the
destination map with `operator[]`, which succeeds unconditionally and
silently replaces any existing child of that name; afterwards the
destination holds a file with the source's name and content. -/
theorem C2_theorem :
    ∀ (fs : FS) (src dst : String) (pp dp : List String) (k fnm c : String),
    fs.cwdValid = true →
    fs.resolveSource src false = .ok (.fileSrc pp k) →
    getChild fs.root pp k = some (.file fnm c) →
    fs.resolveDestination dst = .ok dp →
    (∃ fs', fs.cp src dst false = .ok fs'
        ∧ getChild fs'.root dp fnm = some (.file fnm c))
    ∧ (∃ fs'', fs.mv src dst false = .ok fs''
        ∧ getChild fs''.root dp k = some (.file fnm c)) := by
  intro fs src dst pp dp k fnm c hcwd hs hfile hd
  have hvdp := resolveDestination_valid hcwd hd
  obtain ⟨dn, dcs, hdg⟩ := validDirPath_iff.mp hvdp
  obtain ⟨hvpp, _, _, _⟩ := resolveSource_file hcwd hs
  obtain ⟨pn, pcs, hpg⟩ := validDirPath_iff.mp hvpp
  have hpk : pcs.find k = some (.file fnm c) := by
    simpa [getChild, hpg, Node.childrenOf] using hfile
  constructor
  · have hupd : updateAt fs.root dp (fun cs => .ok (cs.set fnm (.file fnm c)))
        = .ok (replaceAt fs.root dp (dcs.set fnm (.file fnm c))) :=
      updateAt_ok hdg rfl
    have hcp : fs.cp src dst false
        = .ok { fs with root := replaceAt fs.root dp (dcs.set fnm (.file fnm c)) } := by
      simp only [FS.cp, hs, hd, exBindOk, hfile, hupd]
    refine ⟨_, hcp, ?_⟩
    simp [getChild, getNode_replaceAt_self hdg, Node.childrenOf,
          Entries.find_set_self]
  · have hupd1 : updateAt fs.root pp (fun cs => .ok (cs.erase k))
        = .ok (replaceAt fs.root pp (pcs.erase k)) := updateAt_ok hpg rfl
    have hnodirk : ∀ cn ccs, pcs.find k = some (.dir cn ccs) → False := by
      intro cn ccs hx
      rw [hpk] at hx
      cases hx
    have hvdp1 := erase_preserves_valid hpg hvdp hnodirk
    obtain ⟨dn1, dcs1, hdg1⟩ := validDirPath_iff.mp hvdp1
    have hupd2 : updateAt (replaceAt fs.root pp (pcs.erase k)) dp
        (fun cs => .ok (cs.set k (.file fnm c)))
        = .ok (replaceAt (replaceAt fs.root pp (pcs.erase k)) dp
            (dcs1.set k (.file fnm c))) := updateAt_ok hdg1 rfl
    have hmv : fs.mv src dst false
        = .ok { fs with root := (replaceAt (replaceAt fs.root pp (pcs.erase k))
            dp (dcs1.set k (.file fnm c))) } := by
      simp only [FS.mv, hs, hd, exBindOk, hfile, hupd1, hupd2]
    refine ⟨_, hmv, ?_⟩
    simp [getChild, getNode_replaceAt_self hdg1, Node.childrenOf,
          Entries.find_set_self]

/-- Witness: the amended statement at the concrete tree of the
counterexample. -/
theorem C2_witness :
    fsC2.cwdValid = true
    ∧ ((∃ fs', fsC2.cp "f" "/d" false = .ok fs'
          ∧ getChild fs'.root ["d"] "f" = some (.file "f" "src"))
      ∧ (∃ fs'', fsC2.mv "f" "/d" false = .ok fs''
          ∧ getChild fs''.root ["d"] "f" = some (.file "f" "src"))) :=
  ⟨by decide,
   C2_theorem fsC2 "f" "/d" [] ["d"] "f" "f" "src"
     (by decide) (by decide) (by decide) (by decide)⟩

/-! ## Claim C3 — name validation for mkdir vs touch -/

/-- Claim C3, as stated, is false: `touch(".x")` — a name starting with `.`
— does not fail with the invalid-name error; it creates the file (the tree
changes). -/
theorem C3_counterexample :
    Except.map (fun fs' => getChild fs'.root [] ".x") (FS.init.touch ".x")
      = .ok (some (.file ".x" ""))
    ∧ badName ".x" = true := by
  constructor <;> decide

/-- Claim C3 (amended): name validation applies only to `mkdir`, which
rejects empty, dot-leading and slash-containing names with the invalid-name
error (leaving the tree unchanged); `touch` performs no name validation and
creates a file under any name not already present. -/
theorem C3_theorem :
    (∀ (fs : FS) (name : String), fs.cwdValid = true → badName name = true →
      fs.mkdir name = .error (.invalidName name))
    ∧ (∀ (fs : FS) (name : String), fs.cwdValid = true →
      getChild fs.root fs.cwd name = none →
      ∃ fs', fs.touch name = .ok fs'
        ∧ getChild fs'.root fs.cwd name = some (.file name "")
        ∧ fs'.cwd = fs.cwd) := by
  constructor
  · intro fs name hcwd hbad
    obtain ⟨nm, cs, hget⟩ := validDirPath_iff.mp hcwd
    have herr : dirMkdir cs name = .error (.invalidName name) := by
      simp [dirMkdir, hbad]
    have hupderr : updateAt fs.root fs.cwd (fun cs => dirMkdir cs name)
        = .error (.invalidName name) := updateAt_err hget herr
    simp [FS.mkdir, FS.modifyCwd, hupderr, exBindErr]
  · intro fs name hcwd habs
    obtain ⟨nm, cs, hget⟩ := validDirPath_iff.mp hcwd
    have hfind : cs.find name = none := by
      simpa [getChild, hget, Node.childrenOf] using habs
    have hok : dirCreateOrUpdateFile cs name
        = .ok (cs.set name (.file name "")) := by
      simp [dirCreateOrUpdateFile, hfind]
    have hupd : updateAt fs.root fs.cwd (fun cs => dirCreateOrUpdateFile cs name)
        = .ok (replaceAt fs.root fs.cwd (cs.set name (.file name ""))) :=
      updateAt_ok hget hok
    refine ⟨{ fs with root := replaceAt fs.root fs.cwd (cs.set name (.file name "")) },
      by simp only [FS.touch, FS.modifyCwd, hupd, exBindOk], ?_, rfl⟩
    simp [getChild, getNode_replaceAt_self hget, Node.childrenOf,
          Entries.find_set_self]

/-- Witness: the amended statement at the fresh file system and the name
`".x"`. -/
theorem C3_witness :
    FS.init.mkdir ".x" = .error (.invalidName ".x")
    ∧ (∃ fs', FS.init.touch ".x" = .ok fs'
        ∧ getChild fs'.root FS.init.cwd ".x" = some (.file ".x" "")
        ∧ fs'.cwd = FS.init.cwd) :=
  ⟨C3_theorem.1 FS.init ".x" (by decide) (by decide),
   C3_theorem.2 FS.init ".x" (by decide) (by decide)⟩

end MiniShell

namespace MiniShell

/-! ## Claim C4 — serialization of an empty directory -/

/-- Directory holding one file `f` with content `"c"` and one empty
subdirectory `d`. -/
def nodeC4 : Node :=
  .dir "r" (.cons "f" (.file "f" "c") (.cons "d" (.dir "d" .nil) .nil))

/-- Claim C4, as stated, is false: the empty subdirectory `d` serializes to
`null` (the default-constructed `nlohmann::json`), not to an empty
mapping. -/
theorem C4_counterexample :
    (directoryToJson nodeC4).field "d" = some Json.null
    ∧ (directoryToJson nodeC4).field "d" ≠ some (Json.obj .nil)
    ∧ directoryToJson nodeC4
        = Json.obj (.cons "f" (.str "c") (.cons "d" Json.null .nil)) := by
  refine ⟨by decide, by decide, by decide⟩

/-- Claim C4 (amended): serialization maps each file child to its content
string and each directory child to its serialization, but a childless
directory serializes to `null` — so the example directory serializes to
`{ "f": "c", "d": null }`. -/
theorem C4_theorem :
    (∀ nmx : String, directoryToJson (.dir nmx .nil) = Json.null)
    ∧ directoryToJson nodeC4
        = Json.obj (.cons "f" (.str "c") (.cons "d" Json.null .nil))
    ∧ (directoryToJson nodeC4).field "f" = some (.str "c") := by
  refine ⟨fun nmx => rfl, by decide, by decide⟩

/-! ## Claim C5 — write/read round trip -/

/-- The cwd has no directory child named `f` (a file child or no child at
all). -/
def noDirChildAt (fs : FS) (f : String) : Bool :=
  match getChild fs.root fs.cwd f with
  | some (.dir ..) => false
  | _ => true

/-- The content of the cwd's file child `f` (empty if absent). -/
def cwdFileContent (fs : FS) (f : String) : String :=
  match getChild fs.root fs.cwd f with
  | some (.file _ c) => c
  | _ => ""

/-- General write/read behaviour of `writeToFile`: the write succeeds
(creating the file via touch semantics when absent), and a subsequent read
returns the prior content when appending — nothing otherwise — followed by
the message and exactly one `"\n"`. -/
theorem writeToFile_spec {fs : FS} (f msg : String) (a : Bool)
    (hcwd : fs.cwdValid = true) (hno : noDirChildAt fs f = true) :
    ∃ fs', fs.writeToFile f msg a = .ok fs' ∧ fs'.cwd = fs.cwd
      ∧ fs'.cwdValid = true ∧ noDirChildAt fs' f = true
      ∧ cwdFileContent fs' f = (if a then cwdFileContent fs f else "") ++ msg ++ "\n"
      ∧ fs'.readFile f = .ok ((if a then cwdFileContent fs f else "") ++ msg ++ "\n") := by
  obtain ⟨nm, cs, hget⟩ := validDirPath_iff.mp hcwd
  have hgc : getChild fs.root fs.cwd f = cs.find f := by
    simp [getChild, hget, Node.childrenOf]
  cases hf : cs.find f with
  | none =>
      have hw : dirWriteToFile cs f msg a
          = .ok ((cs.set f (.file f "")).set f (.file f (fileWrite "" msg a))) := by
        simp [dirWriteToFile, hf, dirCreateOrUpdateFile, exBindOk,
              Entries.find_set_self]
      have hupd : updateAt fs.root fs.cwd
          (fun cs => dirWriteToFile cs f msg a)
          = .ok (replaceAt fs.root fs.cwd
              ((cs.set f (.file f "")).set f (.file f (fileWrite "" msg a)))) :=
        updateAt_ok hget hw
      have hprior : cwdFileContent fs f = "" := by
        simp [cwdFileContent, hgc, hf]
      refine ⟨{ fs with root := (replaceAt fs.root fs.cwd
          ((cs.set f (.file f "")).set f (.file f (fileWrite "" msg a)))) },
        by simp only [FS.writeToFile, FS.modifyCwd, hupd, exBindOk],
        rfl, ?_, ?_, ?_, ?_⟩
      · simp [FS.cwdValid, validDirPath, getNode_replaceAt_self hget]
      · simp [noDirChildAt, getChild, getNode_replaceAt_self hget,
              Node.childrenOf, Entries.find_set_self]
      · rw [hprior]
        simp [cwdFileContent, getChild, getNode_replaceAt_self hget,
              Node.childrenOf, Entries.find_set_self, fileWrite]
      · rw [hprior]
        simp [FS.readFile, getNode_replaceAt_self hget, Node.childrenOf,
              Entries.find_set_self, fileWrite]
  | some v =>
      cases v with
      | dir dn dcs => simp [noDirChildAt, hgc, hf] at hno
      | file fnm c =>
          have hw : dirWriteToFile cs f msg a
              = .ok (cs.set f (.file fnm (fileWrite c msg a))) := by
            simp [dirWriteToFile, hf, exBindOk]
          have hupd : updateAt fs.root fs.cwd
              (fun cs => dirWriteToFile cs f msg a)
              = .ok (replaceAt fs.root fs.cwd
                  (cs.set f (.file fnm (fileWrite c msg a)))) :=
            updateAt_ok hget hw
          have hprior : cwdFileContent fs f = c := by
            simp [cwdFileContent, hgc, hf]
          refine ⟨{ fs with root := (replaceAt fs.root fs.cwd
              (cs.set f (.file fnm (fileWrite c msg a)))) },
            by simp only [FS.writeToFile, FS.modifyCwd, hupd, exBindOk],
            rfl, ?_, ?_, ?_, ?_⟩
          · simp [FS.cwdValid, validDirPath, getNode_replaceAt_self hget]
          · simp [noDirChildAt, getChild, getNode_replaceAt_self hget,
                  Node.childrenOf, Entries.find_set_self]
          · rw [hprior]
            simp [cwdFileContent, getChild, getNode_replaceAt_self hget,
                  Node.childrenOf, Entries.find_set_self, fileWrite]
          · rw [hprior]
            simp [FS.readFile, getNode_replaceAt_self hget, Node.childrenOf,
                  Entries.find_set_self, fileWrite]

/-- Claim C5: every write appends exactly one trailing newline, overwriting
prior content when `append` is false and concatenating when it is true; in
particular `writeFile(f,"hello",false)` then `readFile(f)` gives
`"hello\n"`, and a further `writeFile(f,"world",true)` makes `readFile(f)`
give `"hello\nworld\n"`. -/
theorem C5_theorem :
    (∀ (fs : FS) (f msg : String) (a : Bool), fs.cwdValid = true →
      noDirChildAt fs f = true →
      ∃ fs', fs.writeToFile f msg a = .ok fs'
        ∧ fs'.readFile f = .ok ((if a then cwdFileContent fs f else "") ++ msg ++ "\n"))
    ∧ (∀ (fs : FS) (f : String), fs.cwdValid = true → noDirChildAt fs f = true →
      ∃ fs1 fs2, fs.writeToFile f "hello" false = .ok fs1
        ∧ fs1.readFile f = .ok "hello\n"
        ∧ fs1.writeToFile f "world" true = .ok fs2
        ∧ fs2.readFile f = .ok "hello\nworld\n") := by
  constructor
  · intro fs f msg a hcwd hno
    obtain ⟨fs', h1, _, _, _, _, h6⟩ := writeToFile_spec f msg a hcwd hno
    exact ⟨fs', h1, h6⟩
  · intro fs f hcwd hno
    obtain ⟨fs1, h1, _, hv1, hn1, hc1, hr1⟩ :=
      writeToFile_spec f "hello" false hcwd hno
    obtain ⟨fs2, h2, _, _, _, _, hr2⟩ :=
      writeToFile_spec f "world" true hv1 hn1
    refine ⟨fs1, fs2, h1, by simpa using hr1, h2, ?_⟩
    rw [hc1] at hr2
    simpa using hr2

/-- Witness: the round trip on a fresh file system. -/
theorem C5_witness :
    ∃ fs1 fs2, FS.init.writeToFile "f" "hello" false = .ok fs1
      ∧ fs1.readFile "f" = .ok "hello\n"
      ∧ fs1.writeToFile "f" "world" true = .ok fs2
      ∧ fs2.readFile "f" = .ok "hello\nworld\n" :=
  C5_theorem.2 FS.init "f" (by decide) (by decide)

end MiniShell

namespace MiniShell

/-! ## Claim C6 — structural safety of copy/move into one's own subtree -/

/-- Function `validateCopyOrMove` rejects, with an `InvalidOperation` error, every
destination that is the source or one of its descendants; when the
destination is a strict descendant of a non-root source, the message is the
subtree-violation one. -/
theorem validateCopyOrMove_subtree (fs : FS) {sp dp : List String}
    (hpre : isPre sp dp = true) :
    (∃ m, fs.validateCopyOrMove sp dp = .error (.invalidOperation m))
    ∧ (sp ≠ dp → sp ≠ [] →
        fs.validateCopyOrMove sp dp
          = .error (.invalidOperation "Cannot copy a directory into its own subdirectory")) := by
  by_cases h1 : sp = dp
  · exact ⟨⟨"Cannot copy a directory into itself",
      by simp [FS.validateCopyOrMove, h1]⟩, fun hne _ => absurd h1 hne⟩
  · by_cases h2 : sp = []
    · subst h2
      refine ⟨⟨"Cannot copy the root directory", ?_⟩, fun _ hne => absurd rfl hne⟩
      simp [FS.validateCopyOrMove, h1]
    · have hsub : fs.validateCopyOrMove sp dp
          = .error (.invalidOperation "Cannot copy a directory into its own subdirectory") := by
        simp [FS.validateCopyOrMove, h1, h2, hpre]
      exact ⟨⟨_, hsub⟩, fun _ _ => hsub⟩

/-- Claim C6: a copy or move of a directory whose destination is the source
itself or one of its descendants fails with an `InvalidOperation` error (the
kind covering self/subtree violations) before any mutation — the state is
unchanged — and with the exact subtree-violation message when the
destination is a strict descendant of a non-root source. -/
theorem C6_theorem :
    ∀ (fs : FS) (src dst : String) (sp dp : List String),
    fs.resolveSource src true = .ok (.dirSrc sp) →
    fs.resolveDestination dst = .ok dp →
    isPre sp dp = true →
    (∃ m, fs.cp src dst true = .error (.invalidOperation m))
    ∧ (∃ m, fs.mv src dst true = .error (.invalidOperation m))
    ∧ runOp fs (.cp src dst true) = fs
    ∧ runOp fs (.mv src dst true) = fs
    ∧ (sp ≠ dp → sp ≠ [] →
        fs.cp src dst true
          = .error (.invalidOperation "Cannot copy a directory into its own subdirectory")
        ∧ fs.mv src dst true
          = .error (.invalidOperation "Cannot copy a directory into its own subdirectory")) := by
  intro fs src dst sp dp hs hd hpre
  obtain ⟨⟨m, hvm⟩, hstrict⟩ := validateCopyOrMove_subtree fs hpre
  have hcp : fs.cp src dst true = .error (.invalidOperation m) := by
    simp only [FS.cp, hs, hd, exBindOk, hvm, exBindErr]
  have hmv : fs.mv src dst true = .error (.invalidOperation m) := by
    simp only [FS.mv, hs, hd, exBindOk, hvm, exBindErr]
  refine ⟨⟨m, hcp⟩, ⟨m, hmv⟩, ?_, ?_, ?_⟩
  · simp [runOp, applyOp, hcp]
  · simp [runOp, applyOp, hmv]
  · intro hne hnnil
    constructor
    · simp only [FS.cp, hs, hd, exBindOk, hstrict hne hnnil, exBindErr]
    · simp only [FS.mv, hs, hd, exBindOk, hstrict hne hnnil, exBindErr]

/-- Tree `/a/b` used for C6. -/
def fsC6 : FS :=
  ⟨.dir "" (.cons "a" (.dir "a" (.cons "b" (.dir "b" .nil) .nil)) .nil), []⟩

/-- Witness: `copy("/a", "/a/b", recursive=true)` with `b` a child of `a`
fails with the subtree-violation message and leaves the state unchanged. -/
theorem C6_witness :
    (∃ m, fsC6.cp "/a" "/a/b" true = .error (.invalidOperation m))
      ∧ runOp fsC6 (.cp "/a" "/a/b" true) = fsC6
      ∧ fsC6.cp "/a" "/a/b" true
        = .error (.invalidOperation "Cannot copy a directory into its own subdirectory") :=
  ⟨(C6_theorem fsC6 "/a" "/a/b" ["a"] ["a", "b"]
      (by decide) (by decide) (by decide)).1,
   (C6_theorem fsC6 "/a" "/a/b" ["a"] ["a", "b"]
      (by decide) (by decide) (by decide)).2.2.1,
   ((C6_theorem fsC6 "/a" "/a/b" ["a"] ["a", "b"]
      (by decide) (by decide) (by decide)).2.2.2.2
      (by decide) (by decide)).1⟩

/-! ## Claim C7 — recursive-flag consistency -/

/-- The flag checks of `resolveSource` are independent of the walk: a source
that resolves as a file with `recursive = false` makes `recursive = true`
fail, and a source that resolves as a directory with `recursive = true`
makes `recursive = false` fail. -/
theorem resolveSource_flag_swap {fs : FS} {src : String} :
    (∀ pp k, fs.resolveSource src false = .ok (.fileSrc pp k) →
      fs.resolveSource src true
        = .error (.invalidOperation "Cannot recursively copy/move a file"))
    ∧ (∀ sp, fs.resolveSource src true = .ok (.dirSrc sp) →
      fs.resolveSource src false
        = .error (.invalidOperation "Cannot non-recursively copy/move a directory")) := by
  cases hv : validatePath src with
  | error e =>
      constructor
      · intro pp k h; simp [FS.resolveSource, hv, exBindErr] at h
      · intro sp h; simp [FS.resolveSource, hv, exBindErr] at h
  | ok ppre =>
      cases hg : getNode fs.root
          (if ppre.type = .ROOT then [] else dropUps fs.cwd ppre.ups) with
      | none =>
          constructor
          · intro pp k h; simp only [FS.resolveSource, hv, exBindOk, hg] at h
            simp [exBindErr] at h
          · intro sp h; simp only [FS.resolveSource, hv, exBindOk, hg] at h
            simp [exBindErr] at h
      | some n =>
          cases hr : resolveParts n
              (if ppre.type = .ROOT then [] else dropUps fs.cwd ppre.ups)
              (splitSegs ppre.rest) with
          | error e =>
              constructor
              · intro pp k h
                simp only [FS.resolveSource, hv, exBindOk, hg, hr] at h
                simp [exBindErr] at h
              · intro sp h
                simp only [FS.resolveSource, hv, exBindOk, hg, hr] at h
                simp [exBindErr] at h
          | ok src₀ =>
              constructor
              · intro pp k h
                simp only [FS.resolveSource, hv, exBindOk, hg, hr] at h
                cases src₀ with
                | fileSrc pp' k' =>
                    simp only [FS.resolveSource, hv, exBindOk, hg, hr]
                    rfl
                | dirSrc q => simp at h
              · intro sp h
                simp only [FS.resolveSource, hv, exBindOk, hg, hr] at h
                cases src₀ with
                | fileSrc pp' k' => simp at h
                | dirSrc q =>
                    simp only [FS.resolveSource, hv, exBindOk, hg, hr]
                    rfl

/-- Claim C7: for every resolvable source, a file source with
`recursive = true` and a directory source with `recursive = false` both make
`cp` and `mv` fail with `InvalidOperation` before any mutation. -/
theorem C7_theorem :
    ∀ (fs : FS) (src : String),
    (∀ pp k, fs.resolveSource src false = .ok (.fileSrc pp k) →
      fs.resolveSource src true
        = .error (.invalidOperation "Cannot recursively copy/move a file")
      ∧ ∀ dst,
        fs.cp src dst true
          = .error (.invalidOperation "Cannot recursively copy/move a file")
        ∧ fs.mv src dst true
          = .error (.invalidOperation "Cannot recursively copy/move a file")
        ∧ runOp fs (.cp src dst true) = fs
        ∧ runOp fs (.mv src dst true) = fs)
    ∧ (∀ sp, fs.resolveSource src true = .ok (.dirSrc sp) →
      fs.resolveSource src false
        = .error (.invalidOperation "Cannot non-recursively copy/move a directory")
      ∧ ∀ dst,
        fs.cp src dst false
          = .error (.invalidOperation "Cannot non-recursively copy/move a directory")
        ∧ fs.mv src dst false
          = .error (.invalidOperation "Cannot non-recursively copy/move a directory")
        ∧ runOp fs (.cp src dst false) = fs
        ∧ runOp fs (.mv src dst false) = fs) := by
  intro fs src
  constructor
  · intro pp k h
    have herr := resolveSource_flag_swap.1 pp k h
    refine ⟨herr, fun dst => ?_⟩
    have hcp : fs.cp src dst true
        = .error (.invalidOperation "Cannot recursively copy/move a file") := by
      simp only [FS.cp, herr, exBindErr]
    have hmv : fs.mv src dst true
        = .error (.invalidOperation "Cannot recursively copy/move a file") := by
      simp only [FS.mv, herr, exBindErr]
    exact ⟨hcp, hmv, by simp [runOp, applyOp, hcp], by simp [runOp, applyOp, hmv]⟩
  · intro sp h
    have herr := resolveSource_flag_swap.2 sp h
    refine ⟨herr, fun dst => ?_⟩
    have hcp : fs.cp src dst false
        = .error (.invalidOperation "Cannot non-recursively copy/move a directory") := by
      simp only [FS.cp, herr, exBindErr]
    have hmv : fs.mv src dst false
        = .error (.invalidOperation "Cannot non-recursively copy/move a directory") := by
      simp only [FS.mv, herr, exBindErr]
    exact ⟨hcp, hmv, by simp [runOp, applyOp, hcp], by simp [runOp, applyOp, hmv]⟩

/-- Tree with file `/f` and directory `/d` used for C7. -/
def fsC7 : FS :=
  ⟨.dir "" (.cons "f" (.file "f" "hi")
    (.cons "d" (.dir "d" .nil) .nil)), []⟩

/-- Witness: both flag misuses at concrete inputs. -/
theorem C7_witness :
    (fsC7.cp "f" "/d" true
      = .error (.invalidOperation "Cannot recursively copy/move a file"))
    ∧ (fsC7.cp "/d" "/" false
      = .error (.invalidOperation "Cannot non-recursively copy/move a directory")) :=
  ⟨((C7_theorem fsC7 "f").1 [] "f" (by decide)).2 "/d" |>.1,
   ((C7_theorem fsC7 "/d").2 ["d"] (by decide)).2 "/" |>.1⟩

end MiniShell

namespace MiniShell

/-! ## Claim C8 — search results -/

/-- The spec's search scenario: `/x/a.txt` contains `"needle in haystack"`,
`/x/y/b.txt` contains `"needle"`. -/
def fsC8 : FS :=
  ⟨.dir "" (.cons "x" (.dir "x"
    (.cons "a.txt" (.file "a.txt" "needle in haystack")
    (.cons "y" (.dir "y" (.cons "b.txt" (.file "b.txt" "needle") .nil))
      .nil))) .nil), []⟩

/-- Claim C8, as stated, is false for the recursive case: the reported
paths are `"x/a.txt"` and `"x/y/b.txt"` — the search root's own name is
included as the first segment — which is not (any permutation of) the paths
relative to the search root, `"a.txt"` and `"y/b.txt"`. -/
theorem C8_counterexample :
    fsC8.grep "/x" "needle" true = .ok (some ["x/a.txt", "x/y/b.txt"])
    ∧ ¬ List.Perm ["x/a.txt", "x/y/b.txt"] ["a.txt", "y/b.txt"] := by
  constructor
  · decide
  · decide

/-- Claim C8 (amended): non-recursive search returns exactly the bare names
of matching immediate file children (`["a.txt"]`); recursive search reports,
for each matching file, the search root's own name followed by the segments
down to the file, joined by `"/"` (i.e. paths relative to the search root's
parent) — here both files, order unconstrained; a pattern matching nothing
gives the absent result rather than an error. -/
theorem C8_theorem :
    fsC8.grep "/x" "needle" false = .ok (some ["a.txt"])
    ∧ (∃ l, fsC8.grep "/x" "needle" true = .ok (some l)
        ∧ List.Perm l ["x/a.txt", "x/y/b.txt"])
    ∧ fsC8.grep "/x" "absent" true = .ok none := by
  refine ⟨by decide, ⟨["x/a.txt", "x/y/b.txt"], by decide, by decide⟩, by decide⟩

/-! ## Claim C9 — the cwd invariant -/

/-- Claim C9, as stated, is false: a sequence of operations can leave the
cwd unreachable from the root.  After `mkdir d; cd d; mkdir e; cd e;
touch d`, copying the file `d` (in the cwd) into `/` silently replaces the
directory `/d` — which lies on the cwd's path — with a file, detaching the
cwd's subtree from the root. -/
theorem C9_counterexample :
    (runOps FS.init
      [.mkdir "d", .cd "d", .mkdir "e", .cd "e", .touch "d",
       .cp "d" "/" false]).cwdValid = false := by
  decide

/-- Claim C9 (amended): the cwd stays a directory reachable from the root
under every operation except the silent-overwrite hole: for `cp`/`mv` the
preservation needs the side condition that the file insertion does not
replace an existing directory child (`opSafe`; for a directory move it also
records the key/stored-name agreement that every manager-built tree has).
Moreover resolving a path never ascends above the root — more parent hops
than the current depth stop at the root — and `cd` leaves the state
unchanged whenever navigation fails. -/
theorem C9_theorem :
    (∀ (fs : FS) (op : Op), fs.cwdValid = true → opSafe fs op = true →
      (runOp fs op).cwdValid = true)
    ∧ (∀ (p : List String) (u : Nat), p.length ≤ u → dropUps p u = [])
    ∧ (∀ (fs : FS) (path : String) (e : Err),
      fs.cd path = .error e → runOp fs (.cd path) = fs) := by
  refine ⟨?_, dropUps_of_le, ?_⟩
  · intro fs op hcwd hsafe
    cases op with
    | cd p =>
        cases happ : fs.cd p with
        | error e => simp [runOp, applyOp, happ]; exact hcwd
        | ok fs' =>
            simp only [runOp, applyOp, happ]
            exact cd_valid hcwd happ
    | mkdir n =>
        cases happ : fs.mkdir n with
        | error e => simp [runOp, applyOp, happ]; exact hcwd
        | ok fs' =>
            simp only [runOp, applyOp, happ]
            exact (modifyCwd_valid hcwd happ).1
    | rmdir n r =>
        cases happ : fs.rmdir n r with
        | error e => simp [runOp, applyOp, happ]; exact hcwd
        | ok fs' =>
            simp only [runOp, applyOp, happ]
            exact (modifyCwd_valid hcwd happ).1
    | rm n =>
        cases happ : fs.rm n with
        | error e => simp [runOp, applyOp, happ]; exact hcwd
        | ok fs' =>
            simp only [runOp, applyOp, happ]
            exact (modifyCwd_valid hcwd happ).1
    | touch n =>
        cases happ : fs.touch n with
        | error e => simp [runOp, applyOp, happ]; exact hcwd
        | ok fs' =>
            simp only [runOp, applyOp, happ]
            exact (modifyCwd_valid hcwd happ).1
    | write n t a =>
        cases happ : fs.writeToFile n t a with
        | error e => simp [runOp, applyOp, happ]; exact hcwd
        | ok fs' =>
            simp only [runOp, applyOp, happ]
            exact (modifyCwd_valid hcwd happ).1
    | cp s d r =>
        cases happ : fs.cp s d r with
        | error e => simp [runOp, applyOp, happ]; exact hcwd
        | ok fs' =>
            simp only [runOp, applyOp, happ]
            exact cp_valid hcwd hsafe happ
    | mv s d r =>
        cases happ : fs.mv s d r with
        | error e => simp [runOp, applyOp, happ]; exact hcwd
        | ok fs' =>
            simp only [runOp, applyOp, happ]
            exact mv_valid hcwd hsafe happ
  · intro fs path e h
    simp [runOp, applyOp, h]

/-- Witness: the amended statement at concrete inputs — a safe `mkdir` and
a safe `cp` preserve the invariant, excess parent hops stop at the root,
and a failing `cd` changes nothing. -/
theorem C9_witness :
    (runOp FS.init (.mkdir "a")).cwdValid = true
    ∧ (runOp fsC2 (.cp "f" "/" false)).cwdValid = true
    ∧ dropUps ["a", "b"] 5 = []
    ∧ runOp FS.init (.cd "nowhere") = FS.init :=
  ⟨C9_theorem.1 FS.init (.mkdir "a") (by decide) (by decide),
   C9_theorem.1 fsC2 (.cp "f" "/" false) (by decide) (by decide),
   C9_theorem.2.1 ["a", "b"] 5 (by decide),
   C9_theorem.2.2 FS.init "nowhere" (.dirDoesNotExist "nowhere") (by decide)⟩

/-! ## Claim C10 — the empty search pattern -/

/-- Claim C10: on a tree whose file contents contain no NUL character,
searching for the empty pattern reports no matches — `grep` returns the
absent result, not a match-everything result. -/
theorem C10_theorem :
    ∀ (fs : FS) (path : String) (r : Bool) (p : List String),
    fs.root.noNul = true → fs.cwdValid = true →
    fs.navigateToDirectory path fs.cwd = .ok p →
    fs.grep path "" r = .ok none := by
  intro fs path r p hnul hcwd hnav
  have hv := navigateToDirectory_valid hcwd hnav
  obtain ⟨nm, cs, hget⟩ := validDirPath_iff.mp hv
  have hnn : Entries.noNul cs = true := by
    have := getNode_noNul p hnul hget
    simpa [Node.noNul] using this
  simp only [FS.grep, hnav, exBindOk, hget]
  cases r with
  | false => simp [grepChildren_empty cs hnn, Node.childrenOf]
  | true => simp [dfsAndGrep, dfsEntries_empty cs [nm] hnn]

/-- Tree reusing the search scenario, for the witness. -/
def fsC10 : FS :=
  ⟨.dir "" (.cons "x" (.dir "x"
    (.cons "a.txt" (.file "a.txt" "needle in haystack")
    (.cons "y" (.dir "y" (.cons "b.txt" (.file "b.txt" "needle") .nil))
      .nil))) .nil), []⟩

/-- Witness: the empty pattern reports no matches on the concrete search
tree. -/
theorem C10_witness :
    fsC10.root.noNul = true ∧ fsC10.grep "/x" "" true = .ok none :=
  ⟨by decide,
   C10_theorem fsC10 "/x" true ["x"] (by decide) (by decide) (by decide)⟩

end MiniShell
